import Mathlib

/-!
# Codemap: call-graph extraction, graph rendering and report ranking

A shallow embedding of `src/codemap.js`.  The syntax trees handed over by the
parsing library are modelled as a small tree type; the two module-level maps
`functionDefinitions` and `functionCalls` are association lists in insertion
order (the iteration order of an ECMAScript `Map`), and a `Set` of callee names
is a list in insertion order.
-/

namespace Codemap

/-! ## Syntax trees -/

/-- The syntax kinds the script tells apart; every other kind is `Other`. -/
inductive SyntaxKind where
  | Identifier
  | PropertyAccessExpression
  | CallExpression
  | ArrowFunction
  | FunctionExpression
  | Other
  deriving DecidableEq, Repr

/-- A syntax node with its source text.  `call` carries the callee expression
(`getExpression()`) and the arguments; `propAccess` carries the object
expression and the name to the right of the dot; `other` stands for every
remaining kind (blocks, statements, parenthesised expressions, element
accesses, literals, the `this` keyword, ...). -/
inductive Node where
  | ident (text : String)
  | propAccess (text : String) (expression : Node) (name : String)
  | call (text : String) (expression : Node) (arguments : List Node)
  | arrow (text : String) (children : List Node)
  | funcExpr (text : String) (children : List Node)
  | other (text : String) (children : List Node)

/-- The result of `node.getKind()`. -/
def Node.getKind : Node → SyntaxKind
  | .ident _ => .Identifier
  | .propAccess _ _ _ => .PropertyAccessExpression
  | .call _ _ _ => .CallExpression
  | .arrow _ _ => .ArrowFunction
  | .funcExpr _ _ => .FunctionExpression
  | .other _ _ => .Other

/-- The result of `node.getText()`: the source text of the node. -/
def Node.getText : Node → String
  | .ident t => t
  | .propAccess t _ _ => t
  | .call t _ _ => t
  | .arrow t _ => t
  | .funcExpr t _ => t
  | .other t _ => t

/-- The result of `call.getExpression()`: the callee of a call expression (and
the object of a property access); other nodes have none. -/
def Node.getExpression : Node → Option Node
  | .call _ e _ => some e
  | .propAccess _ e _ => some e
  | _ => none

mutual
/-- All proper descendants of a node, in document order. -/
def Node.getDescendants : Node → List Node
  | .ident _ => []
  | .propAccess _ e n => e :: (e.getDescendants ++ [Node.ident n])
  | .call _ e args => e :: (e.getDescendants ++ Node.descendantsOfAll args)
  | .arrow _ cs => Node.descendantsOfAll cs
  | .funcExpr _ cs => Node.descendantsOfAll cs
  | .other _ cs => Node.descendantsOfAll cs
/-- The nodes of a forest together with all their descendants, in document order. -/
def Node.descendantsOfAll : List Node → List Node
  | [] => []
  | n :: ns => n :: (n.getDescendants ++ Node.descendantsOfAll ns)
end

/-- The result of `node.getDescendantsOfKind(kind)`. -/
def Node.getDescendantsOfKind (n : Node) (kind : SyntaxKind) : List Node :=
  n.getDescendants.filter (fun d => d.getKind = kind)

/-- A function declaration: `getName()` is absent for an anonymous declaration;
`children` are its parameter and body subtrees. -/
structure FunctionDeclaration where
  name : Option String
  children : List Node

/-- The result of `func.getDescendantsOfKind(kind)`. -/
def FunctionDeclaration.getDescendantsOfKind (func : FunctionDeclaration)
    (kind : SyntaxKind) : List Node :=
  (Node.descendantsOfAll func.children).filter (fun d => d.getKind = kind)

/-- A variable declaration with its name and optional initializer. -/
structure VariableDeclaration where
  name : String
  initializer : Option Node

/-- A method declaration of a class. -/
structure MethodDeclaration where
  name : String
  children : List Node

/-- The result of `method.getDescendantsOfKind(kind)`. -/
def MethodDeclaration.getDescendantsOfKind (method : MethodDeclaration)
    (kind : SyntaxKind) : List Node :=
  (Node.descendantsOfAll method.children).filter (fun d => d.getKind = kind)

/-- A class declaration: `getName()` is absent for an anonymous class. -/
structure ClassDeclaration where
  name : Option String
  methods : List MethodDeclaration

/-- A source file as the script reads it: its path and the three lists
`getFunctions()`, `getVariableDeclarations()` and `getClasses()`. -/
structure SourceFile where
  getFilePath : String
  functions : List FunctionDeclaration
  variableDeclarations : List VariableDeclaration
  classes : List ClassDeclaration

/-! ## Maps and sets in insertion order -/

/-- The method `Set.prototype.add`: a value already present is not added again. -/
def setAdd (s : List String) (x : String) : List String :=
  if x ∈ s then s else s ++ [x]

/-- The method `Map.prototype.set`: an existing key keeps its position and gets
the new value, a new key is appended. -/
def mapSet {V : Type} : List (String × V) → String → V → List (String × V)
  | [], k, v => [(k, v)]
  | (k', v') :: rest, k, v =>
    if k' = k then (k, v) :: rest else (k', v') :: mapSet rest k v

/-- The method `Map.prototype.get`. -/
def mapGet {V : Type} : List (String × V) → String → Option V
  | [], _ => none
  | (k', v') :: rest, k => if k' = k then some v' else mapGet rest k

/-- The method `Map.prototype.has`. -/
def mapHas {V : Type} (m : List (String × V)) (k : String) : Bool :=
  (mapGet m k).isSome

/-- The keys of a map, in iteration order. -/
def mapKeys {V : Type} (m : List (String × V)) : List String :=
  m.map Prod.fst

/-! ## The scan (lines 22-128) -/

/-- The two module-level maps the scan fills. -/
structure ScanState where
  functionCalls : List (String × List String)
  functionDefinitions : List (String × String)

/-- Both maps empty, as created in lines 8-9. -/
def ScanState.empty : ScanState := ⟨[], []⟩

/-- The value of `calledName` after the two kind tests (lines 38-45, 75-82,
109-116): the text of the callee when it is an identifier or a property
access, and `null` otherwise. -/
def calledName (call : Node) : Option String :=
  match call.getExpression with
  | none => none
  | some expr =>
    if expr.getKind = SyntaxKind.Identifier then some expr.getText
    else if expr.getKind = SyntaxKind.PropertyAccessExpression then some expr.getText
    else none

/-- The set `calls` built by `callExpressions.forEach` (lines 35-50): the test
`if (calledName)` lets through every string but `null` and the empty string. -/
def collectCalls (callExpressions : List Node) : List String :=
  callExpressions.foldl
    (fun calls call =>
      match calledName call with
      | none => calls
      | some name => if name = "" then calls else setAdd calls name)
    []

/-- The statements shared by the three declaration shapes (lines 29-54, 67-91,
101-125): register the name with the file path, collect the callee names and
store them when the set is not empty. -/
def register (st : ScanState) (funcName filePath : String)
    (callExpressions : List Node) : ScanState :=
  let defs := mapSet st.functionDefinitions funcName filePath
  let calls := collectCalls callExpressions
  if calls.length > 0 then
    { functionCalls := mapSet st.functionCalls funcName calls, functionDefinitions := defs }
  else
    { functionCalls := st.functionCalls, functionDefinitions := defs }

/-- One round of `sourceFile.getFunctions().forEach` (lines 26-56): the test
`if (funcName)` skips a declaration without a name (or with an empty one). -/
def scanFunction (filePath : String) (st : ScanState) (func : FunctionDeclaration) :
    ScanState :=
  match func.name with
  | none => st
  | some funcName =>
    if funcName = "" then st
    else register st funcName filePath (func.getDescendantsOfKind SyntaxKind.CallExpression)

/-- One round of `sourceFile.getVariableDeclarations().forEach` (lines 59-93). -/
def scanVariableDeclaration (filePath : String) (st : ScanState)
    (varDecl : VariableDeclaration) : ScanState :=
  match varDecl.initializer with
  | none => st
  | some init =>
    if init.getKind = SyntaxKind.ArrowFunction ∨ init.getKind = SyntaxKind.FunctionExpression then
      register st varDecl.name filePath (init.getDescendantsOfKind SyntaxKind.CallExpression)
    else st

/-- The text the template literal gives for `className`: the seven letters
`undefined` when the class has no name. -/
def classNameText : Option String → String
  | none => "undefined"
  | some n => n

/-- The template literal of line 100. -/
def fullName (className : Option String) (methodName : String) : String :=
  classNameText className ++ "." ++ methodName

/-- One round of `cls.getMethods().forEach` (lines 98-126). -/
def scanMethod (filePath : String) (className : Option String) (st : ScanState)
    (method : MethodDeclaration) : ScanState :=
  register st (fullName className method.name) filePath
    (method.getDescendantsOfKind SyntaxKind.CallExpression)

/-- One round of `sourceFile.getClasses().forEach` (lines 96-127). -/
def scanClass (filePath : String) (st : ScanState) (cls : ClassDeclaration) : ScanState :=
  cls.methods.foldl (scanMethod filePath cls.name) st

/-- The replacement of line 23: every backslash becomes a slash. -/
def replaceBackslashes (s : String) : String :=
  ⟨s.data.map (fun c => if c = Char.ofNat 92 then '/' else c)⟩

/-- The constant `filePath` of line 23. -/
def SourceFile.filePath (sourceFile : SourceFile) : String :=
  replaceBackslashes sourceFile.getFilePath

/-- One round of `sourceFiles.forEach` (lines 22-128). -/
def scanFile (st : ScanState) (sourceFile : SourceFile) : ScanState :=
  let st1 := sourceFile.functions.foldl (scanFunction sourceFile.filePath) st
  let st2 := sourceFile.variableDeclarations.foldl
    (scanVariableDeclaration sourceFile.filePath) st1
  sourceFile.classes.foldl (scanClass sourceFile.filePath) st2

/-- The whole scan: both maps after `sourceFiles.forEach`. -/
def scan (sourceFiles : List SourceFile) : ScanState :=
  sourceFiles.foldl scanFile ScanState.empty

/-! ## The graph renderer (lines 133-157) -/

/-- The (caller, callee) pairs for which line 152 runs, in emission order. -/
def dotEdges (functionDefinitions : List (String × String))
    (functionCalls : List (String × List String)) : List (String × String) :=
  functionCalls.flatMap (fun entry =>
    (entry.2.filter (fun calledFunc => mapHas functionDefinitions calledFunc)).map
      (fun calledFunc => (entry.1, calledFunc)))

/-- The text appended by line 152 for one edge. -/
def edgeStatement (edge : String × String) : String :=
  "  \"" ++ edge.1 ++ "\" -> \"" ++ edge.2 ++ "\";\n"

/-- The edge statements of the rendered graph, in emission order. -/
def edgeStatements (functionDefinitions : List (String × String))
    (functionCalls : List (String × List String)) : List String :=
  (dotEdges functionDefinitions functionCalls).map edgeStatement

/-! ## The report (lines 169-197) -/

/-- The comparison `Array.prototype.sort` makes with a comparator `cmp`: the
sort is stable, so it is the insertion sort that keeps `a` before `b` when
`cmp a b ≤ 0`. -/
def sortWith {α : Type} (cmp : α → α → Int) (l : List α) : List α :=
  l.insertionSort (fun a b => cmp a b ≤ 0)

/-- The array `sorted` of lines 175-177. -/
def sorted (functionCalls : List (String × List String)) : List (String × List String) :=
  (sortWith (fun a b => (b.2.length : Int) - (a.2.length : Int)) functionCalls).take 10

/-- The line of the report for one entry of `sorted` (line 180). -/
def sortedLine (entry : String × List String) : String :=
  "- **" ++ entry.1 ++ "**: " ++ toString entry.2.length ++ " calls\n"

/-- The map `callCount` of lines 184-189. -/
def callCount (functionCalls : List (String × List String)) : List (String × Nat) :=
  functionCalls.foldl
    (fun count entry =>
      entry.2.foldl (fun count func => mapSet count func ((mapGet count func).getD 0 + 1)) count)
    []

/-- The array `mostCalled` of lines 191-193. -/
def mostCalled (functionCalls : List (String × List String)) : List (String × Nat) :=
  (sortWith (fun a b => (b.2 : Int) - (a.2 : Int)) (callCount functionCalls)).take 10

/-! ## The scan as one pass over the declarations in scan order -/

/-- A declaration visited by the scan: a function declaration, a variable
declaration, or a method together with the name of its class. -/
inductive Declaration where
  | function (func : FunctionDeclaration)
  | variableDecl (varDecl : VariableDeclaration)
  | method (className : Option String) (method : MethodDeclaration)

/-- The name under which the scan registers a declaration; `none` when the
guards of lines 28 and 61-65 skip it. -/
def Declaration.canonicalName : Declaration → Option String
  | .function func =>
    match func.name with
    | none => none
    | some funcName => if funcName = "" then none else some funcName
  | .variableDecl varDecl =>
    match varDecl.initializer with
    | none => none
    | some init =>
      if init.getKind = SyntaxKind.ArrowFunction ∨ init.getKind = SyntaxKind.FunctionExpression
      then some varDecl.name else none
  | .method className m => some (fullName className m.name)

/-- The call expressions the scan looks at for a declaration (lines 32-34,
69-71, 103-105). -/
def Declaration.callExpressions : Declaration → List Node
  | .function func => func.getDescendantsOfKind SyntaxKind.CallExpression
  | .variableDecl varDecl =>
    match varDecl.initializer with
    | none => []
    | some init => init.getDescendantsOfKind SyntaxKind.CallExpression
  | .method _ m => m.getDescendantsOfKind SyntaxKind.CallExpression

/-- The callee set extracted from a declaration. -/
def Declaration.calleeSet (d : Declaration) : List String :=
  collectCalls d.callExpressions

/-- The declarations of one file in the order the scan visits them: the
function declarations, then the variable declarations, then the methods class
by class. -/
def SourceFile.declarations (sourceFile : SourceFile) : List Declaration :=
  sourceFile.functions.map Declaration.function
    ++ sourceFile.variableDeclarations.map Declaration.variableDecl
    ++ sourceFile.classes.flatMap (fun cls => cls.methods.map (Declaration.method cls.name))

/-- All declarations in scan order, each with the `filePath` of its file. -/
def scannedDeclarations (sourceFiles : List SourceFile) : List (String × Declaration) :=
  sourceFiles.flatMap (fun sourceFile =>
    sourceFile.declarations.map (fun d => (sourceFile.filePath, d)))

/-- What the scan does with one declaration. -/
def scanDeclaration (st : ScanState) (d : String × Declaration) : ScanState :=
  match d.2 with
  | .function func => scanFunction d.1 st func
  | .variableDecl varDecl => scanVariableDeclaration d.1 st varDecl
  | .method className m => scanMethod d.1 className st m

/-- The state of the two maps after the scan has gone through a list of
declarations. -/
def scanDeclarations (ds : List (String × Declaration)) : ScanState :=
  ds.foldl scanDeclaration ScanState.empty

/-- The file path of the last declaration of a list that is registered under `name`. -/
def lastPath (ds : List (String × Declaration)) (name : String) : Option String :=
  ((ds.filter (fun d => d.2.canonicalName = some name)).getLast?).map Prod.fst

/-- The callee set of the last declaration of a list that is registered under
`name` and has a callee set that is not empty. -/
def lastCalleeSet (ds : List (String × Declaration)) (name : String) : Option (List String) :=
  ((ds.filter (fun d => d.2.canonicalName = some name ∧ d.2.calleeSet ≠ [])).getLast?).map
    (fun d => d.2.calleeSet)


/-- The number of distinct caller keys of a call mapping whose callee set
contains `K`. -/
def numCallers (functionCalls : List (String × List String)) (K : String) : Nat :=
  ((mapKeys functionCalls).dedup.filter
    (fun C => decide (K ∈ (mapGet functionCalls C).getD []))).length

/-- Every value stored in a count map is positive. -/
def PositiveCounts (m : List (String × Nat)) : Prop := ∀ e ∈ m, 1 ≤ e.2

/-! ## Example inputs -/

/-- The statement `b();` with its call expression. -/
def callStatement (callee : String) : Node :=
  Node.other (callee ++ "();") [Node.call (callee ++ "()") (Node.ident callee) []]

/-- One file with `function a() { b(); b(); }` and `function b() {}`. -/
def exampleTwoCalls : SourceFile :=
  { getFilePath := "/project/src/example.ts"
    functions :=
      [ { name := some "a"
          children :=
            [Node.ident "a", Node.other "{ b(); b(); }" [callStatement "b", callStatement "b"]] },
        { name := some "b", children := [Node.ident "b", Node.other "{}" []] } ]
    variableDeclarations := []
    classes := [] }

/-! ## Names -/

/-- What the scan's keys need of an identifier: it has no dot and it is not the
keyword `this`.  Every ECMAScript identifier is such a name. -/
def isIdentifierName (s : String) : Bool :=
  !s.data.contains '.' && s != "this"

/-- The declared function names, variable names and class names of the input
are identifiers. -/
def identifierNames (sourceFiles : List SourceFile) : Bool :=
  sourceFiles.all (fun sourceFile =>
    sourceFile.functions.all (fun func =>
        match func.name with
        | none => true
        | some n => isIdentifierName n)
      && sourceFile.variableDeclarations.all (fun varDecl => isIdentifierName varDecl.name)
      && sourceFile.classes.all (fun cls =>
        match cls.name with
        | none => true
        | some n => isIdentifierName n))

/-- The string starts with the five characters `this.`. -/
def startsWithThisDot (s : String) : Bool :=
  s.data.take 5 = ['t', 'h', 'i', 's', '.']

/-- The method body `{ this.helper(); }` of the example. -/
def thisHelperBody : Node :=
  Node.other "{ this.helper(); }"
    [Node.other "this.helper();"
      [Node.call "this.helper()"
        (Node.propAccess "this.helper" (Node.other "this" []) "helper") []]]

/-- A file with `class Foo { bar() { this.helper(); } helper() {} }`. -/
def exampleThisHelper : SourceFile :=
  { getFilePath := "/project/src/foo.ts"
    functions := []
    variableDeclarations := []
    classes :=
      [ { name := some "Foo"
          methods :=
            [ { name := "bar", children := [Node.ident "bar", thisHelperBody] },
              { name := "helper", children := [Node.ident "helper", Node.other "{}" []] } ] } ] }

/-- A second file with `function other() {}` and another class of the same
name, `class Foo { bar() { other(); } }`. -/
def exampleSecondFoo : SourceFile :=
  { getFilePath := "/project/src/legacy/foo.ts"
    functions := [ { name := some "other", children := [Node.ident "other", Node.other "{}" []] } ]
    variableDeclarations := []
    classes :=
      [ { name := some "Foo"
          methods :=
            [ { name := "bar"
                children := [Node.ident "bar", Node.other "{ other(); }" [callStatement "other"]] } ] } ] }

/-- The only call expression inside the method is one whose callee is the
property access written `this.helper`. -/
def onlyCallIsThisHelper (m : MethodDeclaration) : Prop :=
  ∃ call callee, m.getDescendantsOfKind SyntaxKind.CallExpression = [call]
    ∧ call.getExpression = some callee
    ∧ callee.getKind = SyntaxKind.PropertyAccessExpression
    ∧ callee.getText = "this.helper"

/-- A function whose body holds one call expression with an identifier of
empty text as callee: the placeholder the parser puts where an expression is
missing in a file with a syntax error. -/
def exampleMissingCallee : FunctionDeclaration :=
  { name := some "f"
    children :=
      [ Node.ident "f",
        Node.other "{ x = ?.(); }"
          [Node.other "x = ?.();"
            [Node.other "x = ?.()" [Node.ident "x", Node.call "?.()" (Node.ident "") []]]] ] }

/-- A file `a.ts` that declares `function f() {}`. -/
def exampleFirstF : SourceFile :=
  { getFilePath := "/project/src/a.ts"
    functions := [ { name := some "f", children := [Node.ident "f", Node.other "{}" []] } ]
    variableDeclarations := []
    classes := [] }

/-- A file `b.ts` that declares `function f() {}` as well. -/
def exampleSecondF : SourceFile :=
  { getFilePath := "/project/src/b.ts"
    functions := [ { name := some "f", children := [Node.ident "f", Node.other "{}" []] } ]
    variableDeclarations := []
    classes := [] }

/-- A call mapping with twelve callers, several of equal callee-set size. -/
def exampleCallMapping : List (String × List String) :=
  [ ("f1", ["a"]), ("f2", ["a", "b"]), ("f3", ["a"]), ("f4", ["a", "b", "c"]),
    ("f5", ["b"]), ("f6", ["a", "c"]), ("f7", ["c"]), ("f8", ["a", "b"]),
    ("f9", ["d"]), ("f10", ["e"]), ("f11", ["a", "e"]), ("f12", ["f"]) ]

/-! ## The node statements and the two output texts -/

/-- The segments `String.prototype.split` cuts a text into at the occurrences
of a separator, found from left to right without overlap.  `skip` counts the
characters of the separator just found that are still to be passed over, and
`current` holds the segment read so far, last character first. -/
def splitAux (separator : List Char) : List Char → Nat → List Char → List (List Char)
  | [], _, current => [current.reverse]
  | _ :: rest, skip + 1, current => splitAux separator rest skip current
  | c :: rest, 0, current =>
    if separator.isPrefixOf (c :: rest) then
      current.reverse :: splitAux separator rest (separator.length - 1) []
    else splitAux separator rest 0 (c :: current)

/-- The method `String.prototype.split` with a separator that is not empty. -/
def split (s separator : String) : List String :=
  (splitAux separator.data s.data 0 []).map String.mk

/-- The constant `shortPath` of line 140: the second segment of the split when
there is one and it is not the empty string, and `filePath` otherwise. -/
def shortPath (filePath : String) : String :=
  match (split filePath "/src/")[1]? with
  | none => filePath
  | some segment => if segment = "" then filePath else segment

/-- The constant `label` of line 141; the template writes a backslash and the
letter `n` between the name and the path. -/
def nodeLabel (funcName filePath : String) : String :=
  funcName ++ "\\n(" ++ shortPath filePath ++ ")"

/-- The text appended by line 142 for one definition. -/
def nodeStatement (entry : String × String) : String :=
  "  \"" ++ entry.1 ++ "\" [label=\"" ++ nodeLabel entry.1 entry.2 ++ "\"];\n"

/-- The node statements of the rendered graph, in emission order. -/
def nodeStatements (functionDefinitions : List (String × String)) : List String :=
  functionDefinitions.map nodeStatement

/-- The text `dot` written to the graph file (lines 134-157). -/
def dot (functionDefinitions : List (String × String))
    (functionCalls : List (String × List String)) : String :=
  "digraph FunctionCalls \x7b\n" ++ "  rankdir=LR;\n" ++ "  node [shape=box, style=rounded];\n\n"
    ++ String.join (nodeStatements functionDefinitions) ++ "\n"
    ++ String.join (edgeStatements functionDefinitions functionCalls) ++ "\x7d\n"

/-- The line of the report for one entry of `mostCalled` (line 196). -/
def mostCalledLine (entry : String × Nat) : String :=
  "- **" ++ entry.1 ++ "**: called " ++ toString entry.2 ++ " times\n"

/-- The count shown as `Total functions found` (line 171). -/
def totalFunctionsFound (st : ScanState) : Nat :=
  st.functionDefinitions.length

/-- The count shown as `Functions with outgoing calls` (line 172). -/
def functionsWithOutgoingCalls (st : ScanState) : Nat :=
  st.functionCalls.length

/-- The text `report` written to the report file (lines 170-197). -/
def report (st : ScanState) : String :=
  "# Function Call Analysis\n\n"
    ++ "Total functions found: " ++ toString (totalFunctionsFound st) ++ "\n"
    ++ "Functions with outgoing calls: " ++ toString (functionsWithOutgoingCalls st) ++ "\n\n"
    ++ "## Top 10 Functions by Outgoing Calls\n\n"
    ++ String.join ((sorted st.functionCalls).map sortedLine)
    ++ "\n## Functions Called Most Frequently\n\n"
    ++ String.join ((mostCalled st.functionCalls).map mostCalledLine)

/-- The callee names of a call mapping in the order in which they are first
met when going through the callers and, within a caller, its callee set. -/
def firstMet (functionCalls : List (String × List String)) : List String :=
  (functionCalls.flatMap Prod.snd).foldl setAdd []

/-- A file below two directories named `src` that declares `function helper() {}`. -/
def exampleNestedSrc : SourceFile :=
  { getFilePath := "/home/user/src/project/src/utils.ts"
    functions :=
      [ { name := some "helper", children := [Node.ident "helper", Node.other "{}" []] } ]
    variableDeclarations := []
    classes := [] }

/-- Some call expression inside the declaration has the property access
written `Foo.run` as its callee. -/
def callsFooRun (d : Declaration) : Prop :=
  ∃ call ∈ d.callExpressions, ∃ callee, call.getExpression = some callee
    ∧ callee.getKind = SyntaxKind.PropertyAccessExpression
    ∧ callee.getText = "Foo.run"

/-- The statement `Foo.run();` with its call expression. -/
def fooRunStatement : Node :=
  Node.other "Foo.run();"
    [Node.call "Foo.run()" (Node.propAccess "Foo.run" (Node.ident "Foo") "run") []]

/-- The declaration `function caller() { Foo.run(); }`. -/
def callerOfFooRun : FunctionDeclaration :=
  { name := some "caller"
    children := [Node.ident "caller", Node.other "{ Foo.run(); }" [fooRunStatement]] }

/-- The method `run() {}`. -/
def runMethod : MethodDeclaration :=
  { name := "run", children := [Node.ident "run", Node.other "{}" []] }

/-- A file with `class Foo { run() {} }` and `function caller() { Foo.run(); }`. -/
def exampleFooRun : SourceFile :=
  { getFilePath := "/project/src/foo.ts"
    functions := [callerOfFooRun]
    variableDeclarations := []
    classes := [ { name := some "Foo", methods := [runMethod] } ] }

/-- The declaration `function caller() { other(); }`. -/
def callerOfOther : FunctionDeclaration :=
  { name := some "caller"
    children := [Node.ident "caller", Node.other "{ other(); }" [callStatement "other"]] }

/-- A second file with `function other() {}` and `function caller() { other(); }`. -/
def exampleSecondCaller : SourceFile :=
  { getFilePath := "/project/src/other.ts"
    functions :=
      [ { name := some "other", children := [Node.ident "other", Node.other "{}" []] },
        callerOfOther ]
    variableDeclarations := []
    classes := [] }

/-- The initializer of the variable is an arrow function or a function
expression (the test of lines 61-65). -/
def hasFunctionInitializer (varDecl : VariableDeclaration) : Prop :=
  ∃ init, varDecl.initializer = some init
    ∧ (init.getKind = SyntaxKind.ArrowFunction ∨ init.getKind = SyntaxKind.FunctionExpression)

/-- A file `a.ts` that declares `function f() { g(); }`. -/
def exampleFWithCalls : SourceFile :=
  { getFilePath := "/project/src/a.ts"
    functions :=
      [ { name := some "f"
          children := [Node.ident "f", Node.other "{ g(); }" [callStatement "g"]] } ]
    variableDeclarations := []
    classes := [] }

/-- The method `run() { a(); }`. -/
def runCallingA : MethodDeclaration :=
  { name := "run", children := [Node.ident "run", Node.other "{ a(); }" [callStatement "a"]] }

/-- The method `run() { b(); }`. -/
def runCallingB : MethodDeclaration :=
  { name := "run", children := [Node.ident "run", Node.other "{ b(); }" [callStatement "b"]] }

/-- A file `first.ts` with `export default class { run() { a(); } }`. -/
def exampleAnonymousFirst : SourceFile :=
  { getFilePath := "/project/src/first.ts"
    functions := []
    variableDeclarations := []
    classes := [ { name := none, methods := [runCallingA] } ] }

/-- A file `second.ts` with `export default class { run() { b(); } }`. -/
def exampleAnonymousSecond : SourceFile :=
  { getFilePath := "/project/src/second.ts"
    functions := []
    variableDeclarations := []
    classes := [ { name := none, methods := [runCallingB] } ] }
/-! ## Lemmas on maps and sets -/

theorem mapGet_mapSet {V : Type} (m : List (String × V)) (k k' : String) (v : V) :
    mapGet (mapSet m k v) k' = if k = k' then some v else mapGet m k' := by
  induction m with
  | nil => simp [mapSet, mapGet]
  | cons e rest ih =>
    obtain ⟨a, b⟩ := e
    by_cases h : a = k
    · subst h
      by_cases h' : a = k' <;> simp [mapSet, mapGet, h']
    · by_cases h' : a = k'
      · subst h'
        have : ¬ k = a := fun e => h e.symm
        simp [mapSet, mapGet, h, this]
      · simp [mapSet, mapGet, h, h', ih]

theorem mem_mapKeys_mapSet {V : Type} (m : List (String × V)) (k k' : String) (v : V) :
    k' ∈ mapKeys (mapSet m k v) ↔ k' = k ∨ k' ∈ mapKeys m := by
  induction m with
  | nil => simp [mapSet, mapKeys]
  | cons e rest ih =>
    obtain ⟨a, b⟩ := e
    by_cases h : a = k
    · subst h; simp [mapSet, mapKeys]
    · simp only [mapKeys] at ih
      simp [mapSet, mapKeys, h, ih]
      tauto

theorem nodup_mapKeys_mapSet {V : Type} (m : List (String × V)) (k : String) (v : V)
    (h : (mapKeys m).Nodup) : (mapKeys (mapSet m k v)).Nodup := by
  induction m with
  | nil => simp [mapSet, mapKeys]
  | cons e rest ih =>
    obtain ⟨a, b⟩ := e
    have h0 : (a :: mapKeys rest).Nodup := h
    have h1 : a ∉ mapKeys rest := (List.nodup_cons.mp h0).1
    have h2 : (mapKeys rest).Nodup := (List.nodup_cons.mp h0).2
    by_cases hk : a = k
    · subst hk
      simpa [mapSet, mapKeys] using h
    · have h3 : a ∉ mapKeys (mapSet rest k v) := by
        rw [mem_mapKeys_mapSet]; tauto
      have h4 := ih h2
      simp only [mapSet, hk, if_false, mapKeys, List.map_cons, List.nodup_cons]
      exact ⟨by simpa [mapKeys] using h3, by simpa [mapKeys] using h4⟩

theorem mapGet_eq_none_iff {V : Type} (m : List (String × V)) (k : String) :
    mapGet m k = none ↔ k ∉ mapKeys m := by
  induction m with
  | nil => simp [mapGet, mapKeys]
  | cons e rest ih =>
    obtain ⟨a, b⟩ := e
    by_cases h : a = k
    · subst h; simp [mapGet, mapKeys]
    · have h' : ¬ k = a := fun e => h e.symm
      simp only [mapKeys] at ih
      simp [mapGet, mapKeys, h, h', ih]

theorem mapHas_iff {V : Type} (m : List (String × V)) (k : String) :
    mapHas m k = true ↔ k ∈ mapKeys m := by
  unfold mapHas
  rw [Option.isSome_iff_ne_none, Ne, mapGet_eq_none_iff, not_not]

theorem mem_iff_mapGet {V : Type} (m : List (String × V)) (h : (mapKeys m).Nodup)
    (k : String) (v : V) : (k, v) ∈ m ↔ mapGet m k = some v := by
  induction m with
  | nil => simp [mapGet]
  | cons e rest ih =>
    obtain ⟨a, b⟩ := e
    have h0 : (a :: mapKeys rest).Nodup := h
    have h1 : a ∉ mapKeys rest := (List.nodup_cons.mp h0).1
    have h2 : (mapKeys rest).Nodup := (List.nodup_cons.mp h0).2
    by_cases hk : a = k
    · subst hk
      have : ∀ w, (a, w) ∉ rest := fun w hw => h1 (List.mem_map_of_mem Prod.fst hw)
      simp [mapGet, this, eq_comm]
    · have hk' : ¬ k = a := fun e => hk e.symm
      simp [mapGet, hk, hk', ih h2]

theorem mem_of_mapGet {V : Type} (m : List (String × V)) (k : String) (v : V)
    (h : mapGet m k = some v) : (k, v) ∈ m := by
  induction m with
  | nil => simp [mapGet] at h
  | cons e rest ih =>
    obtain ⟨a, b⟩ := e
    by_cases hk : a = k
    · subst hk; simp [mapGet] at h; simp [h]
    · simp [mapGet, hk] at h; simp [ih h]

theorem foldl_flatMap_eq {α β σ : Type} (f : α → List β) (g : σ → β → σ) (l : List α) (init : σ) :
    (l.flatMap f).foldl g init = l.foldl (fun acc x => (f x).foldl g acc) init := by
  induction l generalizing init with
  | nil => rfl
  | cons x xs ih => simp [List.flatMap_cons, List.foldl_append, ih]

theorem scanFile_eq (st : ScanState) (sourceFile : SourceFile) :
    scanFile st sourceFile
      = (sourceFile.declarations.map (fun d => (sourceFile.filePath, d))).foldl
          scanDeclaration st := by
  simp only [scanFile, SourceFile.declarations, List.map_append, List.foldl_append,
    List.foldl_map, List.map_map, List.map_flatMap, foldl_flatMap_eq]
  rfl

theorem scan_eq_scanDeclarations (sourceFiles : List SourceFile) :
    scan sourceFiles = scanDeclarations (scannedDeclarations sourceFiles) := by
  unfold scan scanDeclarations scannedDeclarations
  rw [foldl_flatMap_eq]
  congr 1
  funext st sourceFile
  exact scanFile_eq st sourceFile

theorem scanDeclaration_eq (st : ScanState) (d : String × Declaration) :
    scanDeclaration st d =
      match d.2.canonicalName with
      | none => st
      | some name => register st name d.1 d.2.callExpressions := by
  obtain ⟨p, d⟩ := d
  cases d with
  | function func =>
    simp only [scanDeclaration, scanFunction, Declaration.canonicalName,
      Declaration.callExpressions]
    cases func.name with
    | none => rfl
    | some n => by_cases h : n = "" <;> simp [h]
  | variableDecl varDecl =>
    simp only [scanDeclaration, scanVariableDeclaration, Declaration.canonicalName,
      Declaration.callExpressions]
    cases varDecl.initializer with
    | none => rfl
    | some init =>
      by_cases h : init.getKind = SyntaxKind.ArrowFunction ∨
        init.getKind = SyntaxKind.FunctionExpression <;> simp [h]
  | method className m => rfl


theorem scanDeclarations_concat (ds : List (String × Declaration)) (d : String × Declaration) :
    scanDeclarations (ds ++ [d]) = scanDeclaration (scanDeclarations ds) d := by
  simp [scanDeclarations, List.foldl_append]

theorem register_functionDefinitions (st : ScanState) (n p : String) (ce : List Node) :
    (register st n p ce).functionDefinitions = mapSet st.functionDefinitions n p := by
  unfold register
  by_cases h : (collectCalls ce).length > 0 <;> simp [h]

theorem register_functionCalls (st : ScanState) (n p : String) (ce : List Node) :
    (register st n p ce).functionCalls =
      if collectCalls ce = [] then st.functionCalls
      else mapSet st.functionCalls n (collectCalls ce) := by
  unfold register
  by_cases h : collectCalls ce = []
  · simp [h]
  · have : (collectCalls ce).length > 0 := List.length_pos.mpr h
    simp [h, this]

theorem functionDefinitions_get (ds : List (String × Declaration)) (name : String) :
    mapGet (scanDeclarations ds).functionDefinitions name = lastPath ds name := by
  induction ds using List.reverseRecOn with
  | nil => rfl
  | append_singleton ds d ih =>
    rw [scanDeclarations_concat, scanDeclaration_eq]
    unfold lastPath at ih ⊢
    rw [List.filter_append]
    cases hc : d.2.canonicalName with
    | none => simpa [hc] using ih
    | some n =>
      simp only [register_functionDefinitions, mapGet_mapSet]
      by_cases hn : n = name
      · subst hn; simp [hc]
      · simpa [hc, hn] using ih

theorem functionCalls_get (ds : List (String × Declaration)) (name : String) :
    mapGet (scanDeclarations ds).functionCalls name = lastCalleeSet ds name := by
  induction ds using List.reverseRecOn with
  | nil => rfl
  | append_singleton ds d ih =>
    rw [scanDeclarations_concat, scanDeclaration_eq]
    unfold lastCalleeSet at ih ⊢
    rw [List.filter_append]
    cases hc : d.2.canonicalName with
    | none => simpa [hc] using ih
    | some n =>
      simp only [register_functionCalls]
      by_cases he : collectCalls d.2.callExpressions = []
      · have he' : d.2.calleeSet = [] := he
        simpa [hc, he, he'] using ih
      · have he' : d.2.calleeSet ≠ [] := he
        simp only [he, if_false, mapGet_mapSet]
        by_cases hn : n = name
        · subst hn
          have hf : List.filter (fun d => decide (d.2.canonicalName = some n ∧ d.2.calleeSet ≠ [])) [d] = [d] := by
            simp [hc, he']
          rw [hf, List.getLast?_append]
          simp [Declaration.calleeSet]
        · simpa [hc, hn] using ih

theorem functionDefinitions_nodup (ds : List (String × Declaration)) :
    (mapKeys (scanDeclarations ds).functionDefinitions).Nodup := by
  induction ds using List.reverseRecOn with
  | nil => simp [scanDeclarations, ScanState.empty, mapKeys]
  | append_singleton ds d ih =>
    rw [scanDeclarations_concat, scanDeclaration_eq]
    cases hc : d.2.canonicalName with
    | none => simpa using ih
    | some n =>
      simp only [register_functionDefinitions]
      exact nodup_mapKeys_mapSet _ _ _ ih

theorem functionCalls_nodup (ds : List (String × Declaration)) :
    (mapKeys (scanDeclarations ds).functionCalls).Nodup := by
  induction ds using List.reverseRecOn with
  | nil => simp [scanDeclarations, ScanState.empty, mapKeys]
  | append_singleton ds d ih =>
    rw [scanDeclarations_concat, scanDeclaration_eq]
    cases hc : d.2.canonicalName with
    | none => simpa using ih
    | some n =>
      simp only [register_functionCalls]
      by_cases he : collectCalls d.2.callExpressions = []
      · simpa [he] using ih
      · simp only [he, if_false]
        exact nodup_mapKeys_mapSet _ _ _ ih


/-! ## The graph renderer -/

theorem mem_dotEdges (D : List (String × String)) (F : List (String × List String))
    (C K : String) :
    (C, K) ∈ dotEdges D F ↔ ∃ s, (C, s) ∈ F ∧ K ∈ s ∧ mapHas D K = true := by
  unfold dotEdges
  simp only [List.mem_flatMap, List.mem_map, List.mem_filter, Prod.mk.injEq]
  constructor
  · rintro ⟨⟨c, s⟩, hmem, k, ⟨hk, hD⟩, hc, rfl⟩
    simp only at hc
    subst hc
    exact ⟨s, hmem, hk, hD⟩
  · rintro ⟨s, hmem, hk, hD⟩
    exact ⟨(C, s), hmem, K, ⟨hk, hD⟩, rfl, rfl⟩

theorem mem_dotEdges_of_nodup (D : List (String × String)) (F : List (String × List String))
    (hF : (mapKeys F).Nodup) (C K : String) :
    (C, K) ∈ dotEdges D F ↔
      C ∈ mapKeys F ∧ K ∈ (mapGet F C).getD [] ∧ K ∈ mapKeys D := by
  rw [mem_dotEdges]
  constructor
  · rintro ⟨s, hmem, hk, hD⟩
    have hg := (mem_iff_mapGet F hF C s).mp hmem
    exact ⟨List.mem_map_of_mem Prod.fst hmem, by simpa [hg] using hk, (mapHas_iff D K).mp hD⟩
  · rintro ⟨hC, hk, hD⟩
    cases hg : mapGet F C with
    | none => simp [hg] at hk
    | some s =>
      exact ⟨s, mem_of_mapGet F C s hg, by simpa [hg] using hk, (mapHas_iff D K).mpr hD⟩

/-- C1: for every scan result (definitions mapping `D`, call mapping `F`) and
every pair of names `(C, K)`, the renderer emits the edge statement `C -> K`
if and only if `C` is a key of `F`, `K` is a member of `F[C]`, and `K` is a key
of `D`. -/
theorem C1_edge_iff (sourceFiles : List SourceFile) (C K : String) :
    (C, K) ∈ dotEdges (scan sourceFiles).functionDefinitions (scan sourceFiles).functionCalls ↔
      C ∈ mapKeys (scan sourceFiles).functionCalls
        ∧ K ∈ (mapGet (scan sourceFiles).functionCalls C).getD []
        ∧ K ∈ mapKeys (scan sourceFiles).functionDefinitions := by
  apply mem_dotEdges_of_nodup
  rw [scan_eq_scanDeclarations]
  exact functionCalls_nodup _

/-! ## The called counts -/

/-- The value `callCount.get(func) || 0`. -/
theorem getD_mapSet_succ (m : List (String × Nat)) (f K : String) :
    (mapGet (mapSet m f ((mapGet m f).getD 0 + 1)) K).getD 0
      = (mapGet m K).getD 0 + (if f = K then 1 else 0) := by
  rw [mapGet_mapSet]
  by_cases h : f = K
  · subst h; simp
  · simp [h]

theorem getD_foldl_callees (s : List String) (hs : s.Nodup) (m : List (String × Nat))
    (K : String) :
    (mapGet (s.foldl (fun count func => mapSet count func ((mapGet count func).getD 0 + 1)) m)
        K).getD 0
      = (mapGet m K).getD 0 + (if K ∈ s then 1 else 0) := by
  induction s generalizing m with
  | nil => simp
  | cons f rest ih =>
    have h1 : f ∉ rest := (List.nodup_cons.mp hs).1
    have h2 : rest.Nodup := (List.nodup_cons.mp hs).2
    rw [List.foldl_cons, ih h2, getD_mapSet_succ]
    by_cases h : f = K
    · subst h; simp [h1]
    · have h' : ¬ K = f := fun e => h e.symm
      simp [h, h']

theorem getD_callCount_aux (F : List (String × List String)) (hS : ∀ e ∈ F, e.2.Nodup)
    (m : List (String × Nat)) (K : String) :
    (mapGet (F.foldl (fun count entry =>
        entry.2.foldl (fun count func => mapSet count func ((mapGet count func).getD 0 + 1))
          count) m) K).getD 0
      = (mapGet m K).getD 0 + (F.filter (fun e => decide (K ∈ e.2))).length := by
  induction F generalizing m with
  | nil => simp
  | cons e rest ih =>
    have he : e.2.Nodup := hS e (List.mem_cons_self _ _)
    have hr : ∀ e' ∈ rest, e'.2.Nodup := fun e' h => hS e' (List.mem_cons_of_mem _ h)
    rw [List.foldl_cons, ih hr, getD_foldl_callees _ he]
    by_cases h : K ∈ e.2
    · simp [h, List.filter_cons]; omega
    · simp [h, List.filter_cons]

theorem positiveCounts_mapSet (m : List (String × Nat)) (k : String) (v : Nat) (hv : 1 ≤ v)
    (h : PositiveCounts m) : PositiveCounts (mapSet m k v) := by
  induction m with
  | nil =>
    intro e he
    simp [mapSet] at he
    subst he; exact hv
  | cons a rest ih =>
    obtain ⟨a1, a2⟩ := a
    have hr : PositiveCounts rest := fun e he => h e (List.mem_cons_of_mem _ he)
    intro e he
    by_cases hk : a1 = k
    · simp only [mapSet, hk, if_true, List.mem_cons] at he
      rcases he with he | he
      · subst he; exact hv
      · exact hr e he
    · simp only [mapSet, hk, if_false, List.mem_cons] at he
      rcases he with he | he
      · subst he; exact h _ (List.mem_cons_self _ _)
      · exact ih hr e he

theorem positiveCounts_callCount (F : List (String × List String)) :
    PositiveCounts (callCount F) := by
  unfold callCount
  have key : ∀ (F : List (String × List String)) (m : List (String × Nat)), PositiveCounts m →
      PositiveCounts (F.foldl (fun count entry =>
        entry.2.foldl (fun count func => mapSet count func ((mapGet count func).getD 0 + 1))
          count) m) := by
    intro F
    induction F with
    | nil => intro m hm; simpa using hm
    | cons e rest ih =>
      intro m hm
      rw [List.foldl_cons]
      apply ih
      generalize e.2 = s
      induction s generalizing m with
      | nil => simpa using hm
      | cons f fs ihs =>
        rw [List.foldl_cons]
        exact ihs _ (positiveCounts_mapSet _ _ _ (by omega) hm)
  exact key F [] (fun e he => by cases he)

theorem filter_length_eq_numCallers (F : List (String × List String))
    (hF : (mapKeys F).Nodup) (K : String) :
    (F.filter (fun e => decide (K ∈ e.2))).length = numCallers F K := by
  unfold numCallers
  rw [List.Nodup.dedup hF]
  unfold mapKeys
  rw [List.filter_map, List.length_map]
  congr 1
  apply List.filter_congr
  intro e he
  have : mapGet F e.1 = some e.2 := (mem_iff_mapGet F hF e.1 e.2).mp he
  simp [this]

theorem getD_callCount (F : List (String × List String)) (hF : (mapKeys F).Nodup)
    (hS : ∀ e ∈ F, e.2.Nodup) (K : String) :
    (mapGet (callCount F) K).getD 0 = numCallers F K := by
  unfold callCount
  rw [getD_callCount_aux F hS [] K, filter_length_eq_numCallers F hF K]
  simp [mapGet]

/-- C2: for every call mapping `F` (a map: distinct keys; its values sets: no
repeated member) and every callee name `K`, `K` has an entry in `callCount`
iff at least one caller key of `F` has `K` in its callee set, and then the
count stored for `K` is the number of distinct caller keys of `F` whose callee
set contains `K`. -/
theorem C2_callCount_eq_numCallers (F : List (String × List String))
    (hF : (mapKeys F).Nodup) (hS : ∀ e ∈ F, e.2.Nodup) (K : String) :
    (K ∈ mapKeys (callCount F) ↔ 1 ≤ numCallers F K)
      ∧ (K ∈ mapKeys (callCount F) → mapGet (callCount F) K = some (numCallers F K)) := by
  have hval := getD_callCount F hF hS K
  have hpos := positiveCounts_callCount F
  cases hg : mapGet (callCount F) K with
  | none =>
    have hnot : K ∉ mapKeys (callCount F) := (mapGet_eq_none_iff _ _).mp hg
    rw [hg] at hval
    simp only [Option.getD_none] at hval
    constructor
    · constructor
      · intro h; exact absurd h hnot
      · intro h; omega
    · intro h; exact absurd h hnot
  | some n =>
    have hmem : (K, n) ∈ callCount F := mem_of_mapGet _ _ _ hg
    have hin : K ∈ mapKeys (callCount F) := List.mem_map_of_mem Prod.fst hmem
    have hn : 1 ≤ n := hpos _ hmem
    rw [hg] at hval
    simp only [Option.getD_some] at hval
    subst hval
    exact ⟨⟨fun _ => hn, fun _ => hin⟩, fun _ => rfl⟩

/-- C2 at a concrete call mapping: `a` and `c` both call `b`, only `a` calls `d`. -/
theorem C2_callCount_eq_numCallers_witness :
    (("b" ∈ mapKeys (callCount [("a", ["b", "d"]), ("c", ["b"])])
        ↔ 1 ≤ numCallers [("a", ["b", "d"]), ("c", ["b"])] "b")
      ∧ ("b" ∈ mapKeys (callCount [("a", ["b", "d"]), ("c", ["b"])]) →
          mapGet (callCount [("a", ["b", "d"]), ("c", ["b"])]) "b"
            = some (numCallers [("a", ["b", "d"]), ("c", ["b"])] "b")))
      ∧ numCallers [("a", ["b", "d"]), ("c", ["b"])] "b" = 2 :=
  ⟨C2_callCount_eq_numCallers [("a", ["b", "d"]), ("c", ["b"])] (by decide) (by decide) "b",
    by decide⟩

/-! ## The worked example of the specification -/

/-- C3: for the one-file input declaring `function a() { b(); b(); }` and
`function b() {}`, the call mapping after the scan has exactly the key `a` with
callee set `{b}` of size 1, `b` is not a key of the call mapping, the rendered
graph has exactly one edge statement, which is `a -> b`, and the called count
of `b` is exactly 1. -/
theorem C3_example_two_calls :
    (scan [exampleTwoCalls]).functionCalls = [("a", ["b"])]
      ∧ (mapGet (scan [exampleTwoCalls]).functionCalls "a").map List.length = some 1
      ∧ "b" ∉ mapKeys (scan [exampleTwoCalls]).functionCalls
      ∧ dotEdges (scan [exampleTwoCalls]).functionDefinitions
          (scan [exampleTwoCalls]).functionCalls = [("a", "b")]
      ∧ edgeStatements (scan [exampleTwoCalls]).functionDefinitions
          (scan [exampleTwoCalls]).functionCalls = ["  \"a\" -> \"b\";\n"]
      ∧ mapGet (callCount (scan [exampleTwoCalls]).functionCalls) "b" = some 1 := by
  refine ⟨by decide, by decide, by decide, by decide, by decide, by decide⟩

/-! ## Keys of the two maps -/

theorem mem_scannedDeclarations (sourceFiles : List SourceFile) (d : String × Declaration) :
    d ∈ scannedDeclarations sourceFiles ↔
      ∃ sourceFile ∈ sourceFiles, d.1 = sourceFile.filePath ∧ d.2 ∈ sourceFile.declarations := by
  obtain ⟨p, d⟩ := d
  simp only [scannedDeclarations, List.mem_flatMap, List.mem_map, Prod.mk.injEq]
  constructor
  · rintro ⟨sf, hsf, d', hd', rfl, rfl⟩
    exact ⟨sf, hsf, rfl, hd'⟩
  · rintro ⟨sf, hsf, rfl, hd⟩
    exact ⟨sf, hsf, d, hd, rfl, rfl⟩

theorem mem_declarations (sourceFile : SourceFile) (d : Declaration) :
    d ∈ sourceFile.declarations ↔
      (∃ func ∈ sourceFile.functions, d = Declaration.function func)
        ∨ (∃ varDecl ∈ sourceFile.variableDeclarations, d = Declaration.variableDecl varDecl)
        ∨ (∃ cls ∈ sourceFile.classes, ∃ m ∈ cls.methods, d = Declaration.method cls.name m) := by
  simp only [SourceFile.declarations, List.mem_append, List.mem_map, List.mem_flatMap, or_assoc]
  constructor
  · rintro (⟨f, hf, rfl⟩ | ⟨v, hv, rfl⟩ | ⟨c, hc, m, hm, rfl⟩)
    · exact Or.inl ⟨f, hf, rfl⟩
    · exact Or.inr (Or.inl ⟨v, hv, rfl⟩)
    · exact Or.inr (Or.inr ⟨c, hc, m, hm, rfl⟩)
  · rintro (⟨f, hf, rfl⟩ | ⟨v, hv, rfl⟩ | ⟨c, hc, m, hm, rfl⟩)
    · exact Or.inl ⟨f, hf, rfl⟩
    · exact Or.inr (Or.inl ⟨v, hv, rfl⟩)
    · exact Or.inr (Or.inr ⟨c, hc, m, hm, rfl⟩)

theorem mem_mapKeys_functionDefinitions (ds : List (String × Declaration)) (k : String) :
    k ∈ mapKeys (scanDeclarations ds).functionDefinitions ↔
      ∃ d ∈ ds, d.2.canonicalName = some k := by
  rw [← not_iff_not, ← mapGet_eq_none_iff, functionDefinitions_get]
  unfold lastPath
  simp only [Option.map_eq_none', List.getLast?_eq_none_iff, List.filter_eq_nil_iff,
    decide_eq_true_eq, not_exists, not_and]

theorem mem_mapKeys_functionCalls (ds : List (String × Declaration)) (k : String) :
    k ∈ mapKeys (scanDeclarations ds).functionCalls ↔
      ∃ d ∈ ds, d.2.canonicalName = some k ∧ d.2.calleeSet ≠ [] := by
  rw [← not_iff_not, ← mapGet_eq_none_iff, functionCalls_get]
  unfold lastCalleeSet
  simp only [Option.map_eq_none', List.getLast?_eq_none_iff, List.filter_eq_nil_iff,
    decide_eq_true_eq, not_exists, not_and]

theorem take5_append_dot (a rest : List Char) (h : '.' ∉ a)
    (ht : (a ++ '.' :: rest).take 5 = ['t', 'h', 'i', 's', '.']) : a = ['t', 'h', 'i', 's'] := by
  rcases a with _ | ⟨c1, _ | ⟨c2, _ | ⟨c3, _ | ⟨c4, _ | ⟨c5, a⟩⟩⟩⟩⟩ <;> simp_all

theorem take5_no_dot (a : List Char) (h : '.' ∉ a) :
    a.take 5 ≠ ['t', 'h', 'i', 's', '.'] := by
  intro ht
  have : '.' ∈ a.take 5 := by rw [ht]; simp
  exact h (List.mem_of_mem_take this)

theorem isIdentifierName_iff (s : String) :
    isIdentifierName s = true ↔ '.' ∉ s.data ∧ s ≠ "this" := by
  simp [isIdentifierName]

theorem startsWithThisDot_identifier (s : String) (h : isIdentifierName s = true) :
    startsWithThisDot s = false := by
  have h' := (isIdentifierName_iff s).mp h
  simpa [startsWithThisDot] using take5_no_dot s.data h'.1

theorem startsWithThisDot_fullName (className : Option String) (methodName : String)
    (h : ∀ n, className = some n → isIdentifierName n = true) :
    startsWithThisDot (fullName className methodName) = false := by
  cases className with
  | none =>
    simp [startsWithThisDot, fullName, classNameText, String.data_append]
  | some n =>
    have h' := (isIdentifierName_iff n).mp (h n rfl)
    simp only [startsWithThisDot, fullName, classNameText, String.data_append,
      decide_eq_false_iff_not]
    intro ht
    have h5 : n.data = ['t', 'h', 'i', 's'] := by
      apply take5_append_dot n.data methodName.data h'.1
      simpa using ht
    apply h'.2
    have : n = ⟨n.data⟩ := rfl
    rw [this, h5]

theorem canonicalName_not_thisDot (sourceFiles : List SourceFile)
    (hid : identifierNames sourceFiles = true) (d : String × Declaration)
    (hd : d ∈ scannedDeclarations sourceFiles) (k : String)
    (hk : d.2.canonicalName = some k) : startsWithThisDot k = false := by
  obtain ⟨sf, hsf, -, hdecl⟩ := (mem_scannedDeclarations sourceFiles d).mp hd
  simp only [identifierNames, List.all_eq_true, Bool.and_eq_true] at hid
  obtain ⟨⟨hfun, hvar⟩, hcls⟩ := hid sf hsf
  rcases (mem_declarations sf d.2).mp hdecl with ⟨f, hf, he⟩ | ⟨v, hv, he⟩ | ⟨c, hc, m, hm, he⟩
  · rw [he] at hk
    have hf' := hfun f hf
    simp only [Declaration.canonicalName] at hk
    cases hn : f.name with
    | none => simp [hn] at hk
    | some n =>
      simp only [hn] at hk hf'
      by_cases h0 : n = ""
      · simp [h0] at hk
      · simp only [h0, if_false, Option.some.injEq] at hk
        subst hk
        exact startsWithThisDot_identifier n hf'
  · rw [he] at hk
    have hv' := hvar v hv
    simp only [Declaration.canonicalName] at hk
    cases hi : v.initializer with
    | none => simp [hi] at hk
    | some init =>
      simp only [hi] at hk
      split at hk
      · simp only [Option.some.injEq] at hk
        subst hk
        exact startsWithThisDot_identifier _ hv'
      · simp at hk
  · rw [he] at hk
    simp only [Declaration.canonicalName, Option.some.injEq] at hk
    subst hk
    apply startsWithThisDot_fullName
    intro n hn
    have hc' := hcls c hc
    simpa [hn] using hc'

/-! ## The `this.helper` example -/

theorem calleeSet_onlyCallIsThisHelper (className : Option String) (m : MethodDeclaration)
    (h : onlyCallIsThisHelper m) :
    (Declaration.method className m).calleeSet = ["this.helper"] := by
  obtain ⟨call, callee, hcalls, hexpr, hkind, htext⟩ := h
  simp [Declaration.calleeSet, Declaration.callExpressions, hcalls, collectCalls, calledName,
    hexpr, hkind, htext, setAdd]

theorem lastCalleeSet_of_split (pre post : List (String × Declaration))
    (d : String × Declaration) (name : String) (hd : d.2.canonicalName = some name)
    (hne : d.2.calleeSet ≠ [])
    (hpost : ∀ e ∈ post, e.2.canonicalName = some name → e.2.calleeSet = []) :
    lastCalleeSet (pre ++ d :: post) name = some d.2.calleeSet := by
  unfold lastCalleeSet
  have h1 : List.filter (fun e => decide (e.2.canonicalName = some name ∧ e.2.calleeSet ≠ []))
      post = [] := by
    rw [List.filter_eq_nil_iff]
    intro e he
    simp only [decide_eq_true_eq, not_and, not_not]
    exact hpost e he
  have h2 : List.filter (fun e => decide (e.2.canonicalName = some name ∧ e.2.calleeSet ≠ []))
      (d :: post) = [d] := by
    rw [List.filter_cons, h1]
    simp [hd, hne]
  rw [List.filter_append, h2, List.getLast?_append]
  simp

/-- C4 (amended): when the declared function, variable and class names are
identifiers, a class `Foo` has methods `bar` and `helper`, the only call in
the body of `bar` is `this.helper()`, and no declaration scanned after that
method is registered as `Foo.bar` with a callee set that is not empty, then the
callee set recorded for `Foo.bar` is `{"this.helper"}`, the text `this.helper`
is not a key of the definitions mapping although `Foo.helper` is, and the
rendered graph has no edge out of `Foo.bar`.  Under the same condition on the
names no key of the definitions mapping starts with `this.`, so no rendered
edge has such a target. -/
theorem C4_this_helper_no_edge (sourceFiles : List SourceFile)
    (hid : identifierNames sourceFiles = true)
    (sourceFile : SourceFile) (hsf : sourceFile ∈ sourceFiles)
    (cls : ClassDeclaration) (hcls : cls ∈ sourceFile.classes) (hFoo : cls.name = some "Foo")
    (bar helper : MethodDeclaration) (hbarMem : bar ∈ cls.methods)
    (hhelperMem : helper ∈ cls.methods) (hbar : bar.name = "bar")
    (hhelper : helper.name = "helper") (honly : onlyCallIsThisHelper bar)
    (pre post : List (String × Declaration))
    (hscan : scannedDeclarations sourceFiles
      = pre ++ (sourceFile.filePath, Declaration.method (some "Foo") bar) :: post)
    (hlast : ∀ d ∈ post, d.2.canonicalName = some "Foo.bar" → d.2.calleeSet = []) :
    mapGet (scan sourceFiles).functionCalls "Foo.bar" = some ["this.helper"]
      ∧ "this.helper" ∉ mapKeys (scan sourceFiles).functionDefinitions
      ∧ "Foo.helper" ∈ mapKeys (scan sourceFiles).functionDefinitions
      ∧ (∀ K, ("Foo.bar", K) ∉
          dotEdges (scan sourceFiles).functionDefinitions (scan sourceFiles).functionCalls)
      ∧ (∀ k ∈ mapKeys (scan sourceFiles).functionDefinitions, startsWithThisDot k = false)
      ∧ (∀ e ∈ dotEdges (scan sourceFiles).functionDefinitions (scan sourceFiles).functionCalls,
          startsWithThisDot e.2 = false) := by
  have hkeys : ∀ k ∈ mapKeys (scan sourceFiles).functionDefinitions,
      startsWithThisDot k = false := by
    intro k hk
    rw [scan_eq_scanDeclarations, mem_mapKeys_functionDefinitions] at hk
    obtain ⟨d, hd, hc⟩ := hk
    exact canonicalName_not_thisDot sourceFiles hid d hd k hc
  have hnot : "this.helper" ∉ mapKeys (scan sourceFiles).functionDefinitions := by
    intro hmem
    have := hkeys _ hmem
    revert this
    decide
  have hget : mapGet (scan sourceFiles).functionCalls "Foo.bar" = some ["this.helper"] := by
    have hname : (Declaration.method (some "Foo") bar).canonicalName = some "Foo.bar" := by
      simp only [Declaration.canonicalName, hbar]
      decide
    have hset := calleeSet_onlyCallIsThisHelper (some "Foo") bar honly
    rw [scan_eq_scanDeclarations, functionCalls_get, hscan,
      lastCalleeSet_of_split pre post _ "Foo.bar" hname (by rw [hset]; simp) hlast, hset]
  have hedges : ∀ e ∈ dotEdges (scan sourceFiles).functionDefinitions
      (scan sourceFiles).functionCalls, startsWithThisDot e.2 = false := by
    rintro ⟨C, K⟩ he
    obtain ⟨s, -, -, hD⟩ := (mem_dotEdges _ _ C K).mp he
    exact hkeys K ((mapHas_iff _ K).mp hD)
  refine ⟨hget, hnot, ?_, ?_, hkeys, hedges⟩
  · rw [scan_eq_scanDeclarations, mem_mapKeys_functionDefinitions]
    refine ⟨(sourceFile.filePath, Declaration.method cls.name helper), ?_, ?_⟩
    · rw [mem_scannedDeclarations]
      exact ⟨sourceFile, hsf, rfl,
        (mem_declarations _ _).mpr (Or.inr (Or.inr ⟨cls, hcls, helper, hhelperMem, rfl⟩))⟩
    · simp only [Declaration.canonicalName, hFoo, hhelper]
      decide
  · intro K hK
    have hF : (mapKeys (scan sourceFiles).functionCalls).Nodup := by
      rw [scan_eq_scanDeclarations]; exact functionCalls_nodup _
    obtain ⟨-, hKmem, hKD⟩ := (mem_dotEdges_of_nodup _ _ hF "Foo.bar" K).mp hK
    rw [hget] at hKmem
    simp only [Option.getD_some, List.mem_singleton] at hKmem
    subst hKmem
    exact hnot hKD

/-- C4 as stated fails when a second class `Foo` is scanned later: both names
are identifiers and the first class `Foo` has `bar` (calling only
`this.helper()`) and `helper`, yet the callee set recorded for `Foo.bar` is
`{"other"}` and the graph has the edge `Foo.bar -> other`. -/
theorem C4_counterexample_second_class :
    identifierNames [exampleThisHelper, exampleSecondFoo] = true
      ∧ (∃ cls ∈ exampleThisHelper.classes, cls.name = some "Foo"
          ∧ ∃ bar ∈ cls.methods, ∃ helper ∈ cls.methods,
            bar.name = "bar" ∧ helper.name = "helper" ∧ onlyCallIsThisHelper bar)
      ∧ mapGet (scan [exampleThisHelper, exampleSecondFoo]).functionCalls "Foo.bar"
          = some ["other"]
      ∧ ("Foo.bar", "other") ∈
          dotEdges (scan [exampleThisHelper, exampleSecondFoo]).functionDefinitions
            (scan [exampleThisHelper, exampleSecondFoo]).functionCalls := by
  refine ⟨by decide, ?_, by decide, by decide⟩
  refine ⟨_, List.mem_cons_self _ _, rfl, _, List.mem_cons_self _ _, _,
    List.mem_cons_of_mem _ (List.mem_cons_self _ _), rfl, rfl, ?_⟩
  exact ⟨_, _, rfl, rfl, rfl, rfl⟩

/-- C4 (amended) at the one-file input `class Foo { bar() { this.helper(); } helper() {} }`. -/
theorem C4_this_helper_no_edge_witness :
    mapGet (scan [exampleThisHelper]).functionCalls "Foo.bar" = some ["this.helper"]
      ∧ "this.helper" ∉ mapKeys (scan [exampleThisHelper]).functionDefinitions
      ∧ "Foo.helper" ∈ mapKeys (scan [exampleThisHelper]).functionDefinitions
      ∧ (∀ K, ("Foo.bar", K) ∉
          dotEdges (scan [exampleThisHelper]).functionDefinitions
            (scan [exampleThisHelper]).functionCalls)
      ∧ (∀ k ∈ mapKeys (scan [exampleThisHelper]).functionDefinitions,
          startsWithThisDot k = false)
      ∧ (∀ e ∈ dotEdges (scan [exampleThisHelper]).functionDefinitions
            (scan [exampleThisHelper]).functionCalls,
          startsWithThisDot e.2 = false) :=
  C4_this_helper_no_edge [exampleThisHelper] (by decide) exampleThisHelper
    (List.mem_cons_self _ _)
    { name := some "Foo"
      methods :=
        [ { name := "bar", children := [Node.ident "bar", thisHelperBody] },
          { name := "helper", children := [Node.ident "helper", Node.other "{}" []] } ] }
    (List.mem_cons_self _ _) rfl
    { name := "bar", children := [Node.ident "bar", thisHelperBody] }
    { name := "helper", children := [Node.ident "helper", Node.other "{}" []] }
    (List.mem_cons_self _ _) (List.mem_cons_of_mem _ (List.mem_cons_self _ _)) rfl rfl
    ⟨_, _, rfl, rfl, rfl, rfl⟩
    []
    [(exampleThisHelper.filePath,
      Declaration.method (some "Foo")
        { name := "helper", children := [Node.ident "helper", Node.other "{}" []] })]
    rfl
    (by
      intro d hd
      simp only [List.mem_singleton] at hd
      subst hd
      intro h
      revert h
      simp only [Declaration.canonicalName]
      decide)

/-! ## The call extractor -/

mutual
theorem getDescendants_trans : ∀ (n x y : Node), x ∈ n.getDescendants →
    y ∈ x.getDescendants → y ∈ n.getDescendants
  | .ident _, x, y, hx, _ => by simp [Node.getDescendants] at hx
  | .propAccess _ e nm, x, y, hx, hy => by
    simp only [Node.getDescendants, List.mem_cons, List.mem_append, List.mem_singleton,
      List.not_mem_nil, or_false] at hx ⊢
    rcases hx with rfl | hx | rfl
    · exact Or.inr (Or.inl hy)
    · exact Or.inr (Or.inl (getDescendants_trans e x y hx hy))
    · simp [Node.getDescendants] at hy
  | .call _ e args, x, y, hx, hy => by
    simp only [Node.getDescendants, List.mem_cons, List.mem_append] at hx ⊢
    rcases hx with rfl | hx | hx
    · exact Or.inr (Or.inl hy)
    · exact Or.inr (Or.inl (getDescendants_trans e x y hx hy))
    · exact Or.inr (Or.inr (descendantsOfAll_trans args x y hx hy))
  | .arrow _ cs, x, y, hx, hy => by
    simp only [Node.getDescendants] at hx ⊢
    exact descendantsOfAll_trans cs x y hx hy
  | .funcExpr _ cs, x, y, hx, hy => by
    simp only [Node.getDescendants] at hx ⊢
    exact descendantsOfAll_trans cs x y hx hy
  | .other _ cs, x, y, hx, hy => by
    simp only [Node.getDescendants] at hx ⊢
    exact descendantsOfAll_trans cs x y hx hy
theorem descendantsOfAll_trans : ∀ (ns : List Node) (x y : Node),
    x ∈ Node.descendantsOfAll ns → y ∈ x.getDescendants → y ∈ Node.descendantsOfAll ns
  | [], x, y, hx, _ => by simp [Node.descendantsOfAll] at hx
  | n :: ns, x, y, hx, hy => by
    simp only [Node.descendantsOfAll, List.mem_cons, List.mem_append] at hx ⊢
    rcases hx with rfl | hx | hx
    · exact Or.inr (Or.inl hy)
    · exact Or.inr (Or.inl (getDescendants_trans n x y hx hy))
    · exact Or.inr (Or.inr (descendantsOfAll_trans ns x y hx hy))
end

theorem callExpressions_nested (d : Declaration) (call inner : Node)
    (hcall : call ∈ d.callExpressions) (hinner : inner ∈ call.getDescendants)
    (hkind : inner.getKind = SyntaxKind.CallExpression) : inner ∈ d.callExpressions := by
  cases d with
  | function f =>
    simp only [Declaration.callExpressions, FunctionDeclaration.getDescendantsOfKind,
      List.mem_filter, decide_eq_true_eq] at hcall ⊢
    exact ⟨descendantsOfAll_trans _ _ _ hcall.1 hinner, hkind⟩
  | variableDecl v =>
    simp only [Declaration.callExpressions] at hcall ⊢
    cases hi : v.initializer with
    | none => simp [hi] at hcall
    | some init =>
      simp only [hi, Node.getDescendantsOfKind, List.mem_filter, decide_eq_true_eq] at hcall ⊢
      exact ⟨getDescendants_trans _ _ _ hcall.1 hinner, hkind⟩
  | method cn m =>
    simp only [Declaration.callExpressions, MethodDeclaration.getDescendantsOfKind,
      List.mem_filter, decide_eq_true_eq] at hcall ⊢
    exact ⟨descendantsOfAll_trans _ _ _ hcall.1 hinner, hkind⟩

theorem calledName_eq_some_iff (call : Node) (K : String) :
    calledName call = some K ↔
      ∃ callee, call.getExpression = some callee
        ∧ (callee.getKind = SyntaxKind.Identifier
            ∨ callee.getKind = SyntaxKind.PropertyAccessExpression)
        ∧ callee.getText = K := by
  unfold calledName
  cases he : call.getExpression with
  | none => simp
  | some e =>
    by_cases h1 : e.getKind = SyntaxKind.Identifier
    · simp [h1]
    · by_cases h2 : e.getKind = SyntaxKind.PropertyAccessExpression
      · simp [h2]
      · simp [h1, h2]

theorem mem_setAdd (s : List String) (x K : String) : K ∈ setAdd s x ↔ K ∈ s ∨ K = x := by
  unfold setAdd
  by_cases h : x ∈ s
  · simp only [h, if_true]
    constructor
    · exact Or.inl
    · rintro (h' | rfl)
      · exact h'
      · exact h
  · simp [h]

theorem nodup_setAdd (s : List String) (x : String) (h : s.Nodup) : (setAdd s x).Nodup := by
  unfold setAdd
  by_cases hx : x ∈ s
  · simpa [hx] using h
  · simp only [hx, if_false]
    rw [List.nodup_append]
    refine ⟨h, List.nodup_singleton x, ?_⟩
    intro a ha hb
    simp only [List.mem_singleton] at hb
    subst hb
    exact hx ha

theorem mem_foldl_collect (l : List Node) (acc : List String) (K : String) :
    K ∈ l.foldl
        (fun calls call =>
          match calledName call with
          | none => calls
          | some name => if name = "" then calls else setAdd calls name)
        acc ↔
      K ∈ acc ∨ (K ≠ "" ∧ ∃ call ∈ l, calledName call = some K) := by
  induction l generalizing acc with
  | nil => simp
  | cons c rest ih =>
    rw [List.foldl_cons, ih]
    cases hc : calledName c with
    | none =>
      simp only [List.mem_cons, exists_eq_or_imp, hc]
      simp
    | some n =>
      by_cases hn : n = ""
      · subst hn
        simp only [if_true, List.mem_cons, exists_eq_or_imp, hc, Option.some.injEq]
        constructor
        · rintro (h | ⟨h1, h2⟩)
          · exact Or.inl h
          · exact Or.inr ⟨h1, Or.inr h2⟩
        · rintro (h | ⟨h1, h2 | h2⟩)
          · exact Or.inl h
          · exact absurd h2.symm h1
          · exact Or.inr ⟨h1, h2⟩
      · simp only [hn, if_false, mem_setAdd, List.mem_cons, exists_eq_or_imp, hc,
          Option.some.injEq]
        constructor
        · rintro ((h | h) | ⟨h1, h2⟩)
          · exact Or.inl h
          · subst h; exact Or.inr ⟨hn, Or.inl rfl⟩
          · exact Or.inr ⟨h1, Or.inr h2⟩
        · rintro (h | ⟨h1, h2 | h2⟩)
          · exact Or.inl (Or.inl h)
          · exact Or.inl (Or.inr h2.symm)
          · exact Or.inr ⟨h1, h2⟩

theorem mem_collectCalls (l : List Node) (K : String) :
    K ∈ collectCalls l ↔ K ≠ "" ∧ ∃ call ∈ l, calledName call = some K := by
  unfold collectCalls
  rw [mem_foldl_collect]
  simp

theorem nodup_collectCalls (l : List Node) : (collectCalls l).Nodup := by
  unfold collectCalls
  have key : ∀ (l : List Node) (acc : List String), acc.Nodup →
      (l.foldl
        (fun calls call =>
          match calledName call with
          | none => calls
          | some name => if name = "" then calls else setAdd calls name)
        acc).Nodup := by
    intro l
    induction l with
    | nil => intro acc h; simpa using h
    | cons c rest ih =>
      intro acc h
      rw [List.foldl_cons]
      apply ih
      cases hc : calledName c with
      | none => simpa using h
      | some n =>
        by_cases hn : n = ""
        · simpa [hn] using h
        · simpa [hn] using nodup_setAdd acc n h
  exact key l [] List.nodup_nil

/-- C5 (amended): for every declaration, the extracted callee set holds exactly
the source texts, other than the empty text, of the callee expressions of
those call expressions inside it whose callee is an identifier or a property
access; a call expression whose callee has any other kind yields no name; and
the call expressions looked at are those at any nesting depth: a call
expression nested inside one of them is one of them. -/
theorem C5_calleeSet_iff (d : Declaration) (K : String) :
    (K ∈ d.calleeSet ↔
        K ≠ "" ∧ ∃ call ∈ d.callExpressions, ∃ callee, call.getExpression = some callee
          ∧ (callee.getKind = SyntaxKind.Identifier
              ∨ callee.getKind = SyntaxKind.PropertyAccessExpression)
          ∧ callee.getText = K)
      ∧ (∀ call callee, call.getExpression = some callee
          → callee.getKind ≠ SyntaxKind.Identifier
          → callee.getKind ≠ SyntaxKind.PropertyAccessExpression
          → calledName call = none)
      ∧ (∀ call ∈ d.callExpressions, ∀ inner ∈ call.getDescendants,
          inner.getKind = SyntaxKind.CallExpression → inner ∈ d.callExpressions) := by
  refine ⟨?_, ?_, ?_⟩
  · unfold Declaration.calleeSet
    rw [mem_collectCalls]
    simp only [calledName_eq_some_iff]
  · intro call callee he h1 h2
    simp [calledName, he, h1, h2]
  · intro call hcall inner hinner hkind
    exact callExpressions_nested d call inner hcall hinner hkind

/-- C5 as stated fails on a call whose callee is an identifier with empty
text: the callee is a bare identifier inside the body, but its text is not in
the extracted set, which is empty. -/
theorem C5_counterexample_empty_text :
    (∃ call ∈ (Declaration.function exampleMissingCallee).callExpressions,
        ∃ callee, call.getExpression = some callee
          ∧ callee.getKind = SyntaxKind.Identifier ∧ callee.getText = "")
      ∧ "" ∉ (Declaration.function exampleMissingCallee).calleeSet
      ∧ (Declaration.function exampleMissingCallee).calleeSet = [] := by
  have hcalls : (Declaration.function exampleMissingCallee).callExpressions
      = [Node.call "?.()" (Node.ident "") []] := rfl
  refine ⟨⟨Node.call "?.()" (Node.ident "") [], ?_, Node.ident "", rfl, rfl, rfl⟩,
    by decide, by decide⟩
  rw [hcalls]
  exact List.mem_singleton_self _

/-! ## The definitions mapping -/

theorem replaceBackslashes_eq_self (s : String) (h : Char.ofNat 92 ∉ s.data) :
    replaceBackslashes s = s := by
  unfold replaceBackslashes
  have : s.data.map (fun c => if c = Char.ofNat 92 then '/' else c) = s.data := by
    conv_rhs => rw [← List.map_id s.data]
    apply List.map_congr_left
    intro c hc
    have : c ≠ Char.ofNat 92 := fun e => h (e ▸ hc)
    simp [this]
  rw [this]

theorem lastPath_of_split (pre post : List (String × Declaration))
    (d : String × Declaration) (name : String) (hd : d.2.canonicalName = some name)
    (hpost : ∀ e ∈ post, e.2.canonicalName ≠ some name) :
    lastPath (pre ++ d :: post) name = some d.1 := by
  unfold lastPath
  have h1 : List.filter (fun e => decide (e.2.canonicalName = some name)) post = [] := by
    rw [List.filter_eq_nil_iff]
    intro e he
    simpa using hpost e he
  have h2 : List.filter (fun e => decide (e.2.canonicalName = some name)) (d :: post) = [d] := by
    rw [List.filter_cons, h1]
    simp [hd]
  rw [List.filter_append, h2, List.getLast?_append]
  simp

/-- C6: the scan visits the files in enumeration order and, within a file, the
function declarations, then the variable declarations, then the methods class
by class; after the scan the definitions mapping maps each canonical name to the
file path of the last visited declaration registered under that name (and has
no entry when there is none), and each name is a key only once, so an earlier
declaration of the same name leaves no trace. -/
theorem C6_last_declaration_wins (sourceFiles : List SourceFile) (name : String) :
    scan sourceFiles = scanDeclarations (scannedDeclarations sourceFiles)
      ∧ scannedDeclarations sourceFiles
          = sourceFiles.flatMap (fun sourceFile =>
              (sourceFile.functions.map Declaration.function
                ++ sourceFile.variableDeclarations.map Declaration.variableDecl
                ++ sourceFile.classes.flatMap
                    (fun cls => cls.methods.map (Declaration.method cls.name))).map
                (fun d => (sourceFile.filePath, d)))
      ∧ mapGet (scan sourceFiles).functionDefinitions name
          = ((List.filter (fun d => decide (d.2.canonicalName = some name))
              (scannedDeclarations sourceFiles)).getLast?).map Prod.fst
      ∧ (mapKeys (scan sourceFiles).functionDefinitions).Nodup
      ∧ (∀ filePath, (name, filePath) ∈ (scan sourceFiles).functionDefinitions ↔
          ((List.filter (fun d => decide (d.2.canonicalName = some name))
              (scannedDeclarations sourceFiles)).getLast?).map Prod.fst = some filePath) := by
  have hget : mapGet (scan sourceFiles).functionDefinitions name
      = ((List.filter (fun d => decide (d.2.canonicalName = some name))
          (scannedDeclarations sourceFiles)).getLast?).map Prod.fst := by
    rw [scan_eq_scanDeclarations, functionDefinitions_get]
    rfl
  have hnd : (mapKeys (scan sourceFiles).functionDefinitions).Nodup := by
    rw [scan_eq_scanDeclarations]
    exact functionDefinitions_nodup _
  refine ⟨scan_eq_scanDeclarations sourceFiles, rfl, hget, hnd, ?_⟩
  intro filePath
  rw [mem_iff_mapGet _ hnd, hget]

/-- C7 as stated fails when a name is declared in two files: the declaration
of `f` in `a.ts` is discovered by the scan, but the path recorded under `f` is
that of `b.ts`. -/
theorem C7_counterexample_two_files :
    ∃ d ∈ scannedDeclarations [exampleFirstF, exampleSecondF],
      d.1 = exampleFirstF.filePath
        ∧ d.2.canonicalName = some "f"
        ∧ mapGet (scan [exampleFirstF, exampleSecondF]).functionDefinitions "f"
            = some exampleSecondF.filePath
        ∧ mapGet (scan [exampleFirstF, exampleSecondF]).functionDefinitions "f" ≠ some d.1 := by
  refine ⟨(exampleFirstF.filePath,
    Declaration.function { name := some "f", children := [Node.ident "f", Node.other "{}" []] }),
    ?_, rfl, rfl, by decide, by decide⟩
  have h : scannedDeclarations [exampleFirstF, exampleSecondF]
      = [(exampleFirstF.filePath, Declaration.function
            { name := some "f", children := [Node.ident "f", Node.other "{}" []] }),
         (exampleSecondF.filePath, Declaration.function
            { name := some "f", children := [Node.ident "f", Node.other "{}" []] })] := rfl
  rw [h]
  exact List.mem_cons_self _ _

/-- C7 (amended): for every input and every declaration discovered by the scan
that is not followed, in scan order, by another declaration registered under
the same canonical name, the file path recorded under its canonical name after
the scan is the path of the file in which it appears (the constant `filePath`
of line 23, which is the path the parsing library reports whenever that has no
backslash). -/
theorem C7_recorded_path (sourceFiles : List SourceFile)
    (pre post : List (String × Declaration)) (d : String × Declaration) (name : String)
    (hscan : scannedDeclarations sourceFiles = pre ++ d :: post)
    (hname : d.2.canonicalName = some name)
    (hlast : ∀ e ∈ post, e.2.canonicalName ≠ some name) :
    mapGet (scan sourceFiles).functionDefinitions name = some d.1
      ∧ ∃ sourceFile ∈ sourceFiles, d.2 ∈ sourceFile.declarations
          ∧ d.1 = sourceFile.filePath
          ∧ (Char.ofNat 92 ∉ sourceFile.getFilePath.data → d.1 = sourceFile.getFilePath) := by
  constructor
  · rw [scan_eq_scanDeclarations, functionDefinitions_get, hscan]
    exact lastPath_of_split pre post d name hname hlast
  · have hmem : d ∈ scannedDeclarations sourceFiles := by
      rw [hscan]; simp
    obtain ⟨sf, hsf, hp, hd⟩ := (mem_scannedDeclarations sourceFiles d).mp hmem
    refine ⟨sf, hsf, hd, hp, ?_⟩
    intro hb
    rw [hp]
    exact replaceBackslashes_eq_self _ hb

/-- C7 (amended) at the two files that both declare `f`: the declaration in
`b.ts` is the last one, and `b.ts` is the recorded path. -/
theorem C7_recorded_path_witness :
    mapGet (scan [exampleFirstF, exampleSecondF]).functionDefinitions "f"
        = some "/project/src/b.ts"
      ∧ ∃ sourceFile ∈ [exampleFirstF, exampleSecondF],
          Declaration.function
              { name := some "f", children := [Node.ident "f", Node.other "{}" []] }
            ∈ sourceFile.declarations
          ∧ "/project/src/b.ts" = sourceFile.filePath
          ∧ (Char.ofNat 92 ∉ sourceFile.getFilePath.data
              → "/project/src/b.ts" = sourceFile.getFilePath) :=
  C7_recorded_path [exampleFirstF, exampleSecondF]
    [(exampleFirstF.filePath, Declaration.function
        { name := some "f", children := [Node.ident "f", Node.other "{}" []] })]
    []
    ("/project/src/b.ts", Declaration.function
        { name := some "f", children := [Node.ident "f", Node.other "{}" []] })
    "f" rfl rfl (by intro e he; cases he)

/-! ## The call mapping -/

theorem lastCalleeSet_eq_some (ds : List (String × Declaration)) (name : String)
    (s : List String) (h : lastCalleeSet ds name = some s) :
    ∃ d ∈ ds, d.2.canonicalName = some name ∧ d.2.calleeSet = s ∧ s ≠ [] := by
  unfold lastCalleeSet at h
  rw [Option.map_eq_some'] at h
  obtain ⟨d, hd, hs⟩ := h
  have hmem := List.mem_of_getLast?_eq_some hd
  rw [List.mem_filter] at hmem
  obtain ⟨hin, hp⟩ := hmem
  simp only [decide_eq_true_eq] at hp
  exact ⟨d, hin, hp.1, hs, hs ▸ hp.2⟩

/-- C8: for every input and every key `C` of the call mapping after the scan,
the callee set recorded for `C` has no duplicates, and there is a scanned
declaration with canonical name `C` such that every member of the set is the
source text of the callee expression of some call expression inside that
declaration. -/
theorem C8_recorded_callees (sourceFiles : List SourceFile) (C : String) (s : List String)
    (h : mapGet (scan sourceFiles).functionCalls C = some s) :
    s.Nodup
      ∧ ∃ d ∈ scannedDeclarations sourceFiles, d.2.canonicalName = some C
          ∧ ∀ K ∈ s, ∃ call ∈ d.2.callExpressions, ∃ callee,
              call.getKind = SyntaxKind.CallExpression
                ∧ call.getExpression = some callee ∧ callee.getText = K := by
  rw [scan_eq_scanDeclarations, functionCalls_get] at h
  obtain ⟨d, hd, hname, hset, -⟩ := lastCalleeSet_eq_some _ _ _ h
  subst hset
  refine ⟨nodup_collectCalls _, d, hd, hname, ?_⟩
  intro K hK
  obtain ⟨-, call, hcall, hcn⟩ := (mem_collectCalls _ K).mp hK
  obtain ⟨callee, he, -, ht⟩ := (calledName_eq_some_iff call K).mp hcn
  refine ⟨call, hcall, callee, ?_, he, ht⟩
  have hk : ∀ (dd : Declaration), ∀ c ∈ dd.callExpressions,
      c.getKind = SyntaxKind.CallExpression := by
    intro dd c hc
    cases dd with
    | function f =>
      simp only [Declaration.callExpressions, FunctionDeclaration.getDescendantsOfKind,
        List.mem_filter, decide_eq_true_eq] at hc
      exact hc.2
    | variableDecl v =>
      simp only [Declaration.callExpressions] at hc
      cases hi : v.initializer with
      | none => simp [hi] at hc
      | some init =>
        simp only [hi, Node.getDescendantsOfKind, List.mem_filter, decide_eq_true_eq] at hc
        exact hc.2
    | method cn m =>
      simp only [Declaration.callExpressions, MethodDeclaration.getDescendantsOfKind,
        List.mem_filter, decide_eq_true_eq] at hc
      exact hc.2
  exact hk d.2 call hcall

/-- C8 at the example `function a() { b(); b(); }`, `function b() {}`: the set
recorded for `a` is `{b}`. -/
theorem C8_recorded_callees_witness :
    ["b"].Nodup
      ∧ ∃ d ∈ scannedDeclarations [exampleTwoCalls], d.2.canonicalName = some "a"
          ∧ ∀ K ∈ ["b"], ∃ call ∈ d.2.callExpressions, ∃ callee,
              call.getKind = SyntaxKind.CallExpression
                ∧ call.getExpression = some callee ∧ callee.getText = K :=
  C8_recorded_callees [exampleTwoCalls] "a" ["b"] (by decide)

/-- C9: the state of the scan after any number of declarations, in scan order,
stores only non-empty callee sets in the call mapping; and processing a
declaration whose extracted callee set is empty leaves the call mapping as it
was, neither adding the key nor storing an empty set. -/
theorem C9_callee_sets_nonempty (sourceFiles : List SourceFile) (n : Nat) :
    scan sourceFiles = scanDeclarations (scannedDeclarations sourceFiles)
      ∧ (∀ e ∈ (scanDeclarations ((scannedDeclarations sourceFiles).take n)).functionCalls,
          e.2 ≠ [])
      ∧ (∀ (st : ScanState) (d : String × Declaration), d.2.calleeSet = [] →
          (scanDeclaration st d).functionCalls = st.functionCalls) := by
  refine ⟨scan_eq_scanDeclarations sourceFiles, ?_, ?_⟩
  · rintro ⟨C, s⟩ he
    have hnd := functionCalls_nodup ((scannedDeclarations sourceFiles).take n)
    have hg := (mem_iff_mapGet _ hnd C s).mp he
    rw [functionCalls_get] at hg
    obtain ⟨d, -, -, -, hne⟩ := lastCalleeSet_eq_some _ _ _ hg
    exact hne
  · intro st d hd
    rw [scanDeclaration_eq]
    cases hc : d.2.canonicalName with
    | none => rfl
    | some name =>
      have hd' : collectCalls d.2.callExpressions = [] := hd
      simp [register_functionCalls, hd']

/-! ## Sorting by a descending key, as both rankings of the report do -/

section SortByKey

variable {α : Type} (key : α → Nat)

theorem filter_orderedInsert_key (k : Nat) (a : α) (S : List α) :
    (S.orderedInsert (fun x y => (key y : Int) - (key x : Int) ≤ 0) a).filter
        (fun e => decide (key e = k))
      = if key a = k then a :: S.filter (fun e => decide (key e = k))
        else S.filter (fun e => decide (key e = k)) := by
  induction S with
  | nil => by_cases h : key a = k <;> simp [h]
  | cons b S ih =>
    by_cases hr : (key b : Int) - (key a : Int) ≤ 0
    · simp only [List.orderedInsert, hr, if_true]
      by_cases h : key a = k <;> simp [List.filter_cons, h]
    · simp only [List.orderedInsert, hr, if_false]
      rw [List.filter_cons, ih]
      by_cases h : key a = k
      · have hb : ¬ key b = k := by
          intro hb
          apply hr
          omega
        simp [h, hb, List.filter_cons]
      · simp [h, List.filter_cons]

theorem filter_sortWith_key (k : Nat) (l : List α) :
    (sortWith (fun a b => (key b : Int) - (key a : Int)) l).filter (fun e => decide (key e = k))
      = l.filter (fun e => decide (key e = k)) := by
  unfold sortWith
  induction l with
  | nil => rfl
  | cons a l ih =>
    rw [List.insertionSort, filter_orderedInsert_key, ih]
    by_cases h : key a = k <;> simp [h, List.filter_cons]

theorem perm_sortWith {β : Type} (cmp : β → β → Int) (l : List β) :
    (sortWith cmp l).Perm l :=
  List.perm_insertionSort _ l

theorem pairwise_sortWith_key (l : List α) :
    (sortWith (fun a b => (key b : Int) - (key a : Int)) l).Pairwise
      (fun a b => key b ≤ key a) := by
  have hs := @List.sorted_insertionSort α
    (fun a b => (key b : Int) - (key a : Int) ≤ 0) _
    ⟨fun a b => by
      show (key b : Int) - (key a : Int) ≤ 0 ∨ (key a : Int) - (key b : Int) ≤ 0
      omega⟩
    ⟨fun a b c hab hbc => by
      show (key c : Int) - (key a : Int) ≤ 0
      have h1 : (key b : Int) - (key a : Int) ≤ 0 := hab
      have h2 : (key c : Int) - (key b : Int) ≤ 0 := hbc
      omega⟩ l
  unfold sortWith
  refine List.Pairwise.imp ?_ hs
  intro a b h
  have h' : (key b : Int) - (key a : Int) ≤ 0 := h
  omega

/-- What the first `n` entries of a list sorted by descending key are. -/
theorem take_sortWith_key (n : Nat) (l : List α) :
    ((sortWith (fun a b => (key b : Int) - (key a : Int)) l).take n).length = min n l.length
      ∧ ((sortWith (fun a b => (key b : Int) - (key a : Int)) l).take n).Sublist
          (sortWith (fun a b => (key b : Int) - (key a : Int)) l)
      ∧ ((sortWith (fun a b => (key b : Int) - (key a : Int)) l).take n).Pairwise
          (fun a b => key b ≤ key a)
      ∧ (∀ a ∈ (sortWith (fun a b => (key b : Int) - (key a : Int)) l).take n,
          ∀ b ∈ (sortWith (fun a b => (key b : Int) - (key a : Int)) l).drop n,
            key b ≤ key a)
      ∧ (∀ k, ((sortWith (fun a b => (key b : Int) - (key a : Int)) l).take n).filter
            (fun e => decide (key e = k))
          <+: l.filter (fun e => decide (key e = k))) := by
  have hp := pairwise_sortWith_key key l
  refine ⟨?_, List.take_sublist _ _, hp.sublist (List.take_sublist _ _), ?_, ?_⟩
  · rw [List.length_take, (perm_sortWith _ l).length_eq]
  · have h := hp
    rw [← List.take_append_drop n (sortWith (fun a b => (key b : Int) - (key a : Int)) l),
      List.pairwise_append] at h
    exact h.2.2
  · intro k
    refine ⟨((sortWith (fun a b => (key b : Int) - (key a : Int)) l).drop n).filter
      (fun e => decide (key e = k)), ?_⟩
    rw [← List.filter_append, List.take_append_drop, filter_sortWith_key]

end SortByKey

/-! ## The ranking of callers -/

/-- C10: for every call mapping `F` with `n` keys, the list of top callers has
exactly `min 10 n` entries; each is a key of `F` together with its callee set
(whose size the report shows), and no key is listed twice; the entries are in
non-increasing order of size; every entry of `F` left out has a size no larger
than that of every listed entry; and for each size the listed entries of that
size are, in the same order, the first ones of that size in the iteration order
of `F`, which is what a stable sort gives. -/
theorem C10_top_callers (F : List (String × List String)) (hF : (mapKeys F).Nodup) :
    (sorted F).length = min 10 F.length
      ∧ (∀ e ∈ sorted F, mapGet F e.1 = some e.2)
      ∧ (mapKeys (sorted F)).Nodup
      ∧ (sorted F).Pairwise (fun a b => b.2.length ≤ a.2.length)
      ∧ (∀ e ∈ F, e ∉ sorted F → ∀ e' ∈ sorted F, e.2.length ≤ e'.2.length)
      ∧ (∀ k, (sorted F).filter (fun e => decide (e.2.length = k))
          <+: F.filter (fun e => decide (e.2.length = k))) := by
  obtain ⟨hlen, hsub, hpair, hcut, hstable⟩ :=
    take_sortWith_key (fun e : String × List String => e.2.length) 10 F
  have hperm := perm_sortWith
    (fun a b : String × List String => (b.2.length : Int) - (a.2.length : Int)) F
  refine ⟨hlen, ?_, ?_, hpair, ?_, hstable⟩
  · intro e he
    have hmem : e ∈ F := hperm.subset (hsub.subset he)
    exact (mem_iff_mapGet F hF e.1 e.2).mp hmem
  · have h1 : (mapKeys (sortWith
        (fun a b : String × List String => (b.2.length : Int) - (a.2.length : Int)) F)).Nodup :=
      ((hperm.map Prod.fst).nodup_iff).mpr hF
    exact h1.sublist (hsub.map Prod.fst)
  · intro e he hnot e' he'
    have hmem : e ∈ sortWith
        (fun a b : String × List String => (b.2.length : Int) - (a.2.length : Int)) F :=
      hperm.symm.subset he
    rw [← List.take_append_drop 10 (sortWith
        (fun a b : String × List String => (b.2.length : Int) - (a.2.length : Int)) F),
      List.mem_append] at hmem
    rcases hmem with h | h
    · exact absurd h hnot
    · exact hcut e' he' e h

/-- C10 at a call mapping with twelve callers: ten are listed, in the order
`f4, f2, f6, f8, f11, f1, f3, f5, f7, f9`. -/
theorem C10_top_callers_witness :
    ((sorted exampleCallMapping).length = min 10 exampleCallMapping.length
      ∧ (∀ e ∈ sorted exampleCallMapping, mapGet exampleCallMapping e.1 = some e.2)
      ∧ (mapKeys (sorted exampleCallMapping)).Nodup
      ∧ (sorted exampleCallMapping).Pairwise (fun a b => b.2.length ≤ a.2.length)
      ∧ (∀ e ∈ exampleCallMapping, e ∉ sorted exampleCallMapping →
          ∀ e' ∈ sorted exampleCallMapping, e.2.length ≤ e'.2.length)
      ∧ (∀ k, (sorted exampleCallMapping).filter (fun e => decide (e.2.length = k))
          <+: exampleCallMapping.filter (fun e => decide (e.2.length = k))))
      ∧ mapKeys (sorted exampleCallMapping)
          = ["f4", "f2", "f6", "f8", "f11", "f1", "f3", "f5", "f7", "f9"] :=
  ⟨C10_top_callers exampleCallMapping (by decide), by decide⟩

/-! ## The ranking of callees -/

theorem mapKeys_mapSet {V : Type} (m : List (String × V)) (k : String) (v : V) :
    mapKeys (mapSet m k v) = setAdd (mapKeys m) k := by
  induction m with
  | nil => simp [mapSet, mapKeys, setAdd]
  | cons e rest ih =>
    obtain ⟨a, b⟩ := e
    by_cases h : a = k
    · subst h
      simp [mapSet, mapKeys, setAdd]
    · have h' : ¬ k = a := fun e => h e.symm
      simp only [mapKeys, setAdd] at ih
      simp only [mapSet, h, if_false, mapKeys, List.map_cons, setAdd, List.mem_cons, h',
        false_or, ih]
      by_cases hk : k ∈ List.map Prod.fst rest <;> simp [hk]

theorem mapKeys_foldl_callees (s : List String) (m : List (String × Nat)) :
    mapKeys (s.foldl (fun count func => mapSet count func ((mapGet count func).getD 0 + 1)) m)
      = s.foldl setAdd (mapKeys m) := by
  induction s generalizing m with
  | nil => rfl
  | cons f rest ih => rw [List.foldl_cons, ih, mapKeys_mapSet, List.foldl_cons]

theorem mapKeys_callCount_aux (F : List (String × List String)) (m : List (String × Nat)) :
    mapKeys (F.foldl (fun count entry =>
        entry.2.foldl (fun count func => mapSet count func ((mapGet count func).getD 0 + 1))
          count) m)
      = (F.flatMap Prod.snd).foldl setAdd (mapKeys m) := by
  induction F generalizing m with
  | nil => rfl
  | cons e rest ih =>
    rw [List.foldl_cons, ih, mapKeys_foldl_callees, List.flatMap_cons, List.foldl_append]

theorem mapKeys_callCount (F : List (String × List String)) :
    mapKeys (callCount F) = firstMet F := by
  unfold callCount firstMet
  rw [mapKeys_callCount_aux]
  rfl

theorem nodup_foldl_setAdd (l acc : List String) (h : acc.Nodup) :
    (l.foldl setAdd acc).Nodup := by
  induction l generalizing acc with
  | nil => simpa using h
  | cons x rest ih =>
    rw [List.foldl_cons]
    exact ih _ (nodup_setAdd acc x h)

theorem mem_foldl_setAdd (l acc : List String) (K : String) :
    K ∈ l.foldl setAdd acc ↔ K ∈ acc ∨ K ∈ l := by
  induction l generalizing acc with
  | nil => simp
  | cons x rest ih =>
    rw [List.foldl_cons, ih, mem_setAdd, List.mem_cons]
    tauto

theorem length_firstMet (F : List (String × List String)) :
    (firstMet F).length = (F.flatMap Prod.snd).dedup.length := by
  apply List.Perm.length_eq
  unfold firstMet
  rw [List.perm_ext_iff_of_nodup (nodup_foldl_setAdd _ _ List.nodup_nil) (List.nodup_dedup _)]
  intro K
  rw [mem_foldl_setAdd, List.mem_dedup]
  simp

/-- C11: for every call mapping `F` whose callee sets mention `m` distinct
names, the list of most called functions has exactly `min 10 m` entries; each
is a callee name with the count `callCount` holds for it, and no name is listed
twice; the entries are in non-increasing order of count; every name left out
has a count no larger than that of every listed entry; and for each count the
listed names of that count are, in the same order, the first ones of that
count in the order in which the names are first met when going through the
callers of `F` and, within a caller, its callee set.  The ranking is computed
from `F` alone, so a name that is no key of the definitions mapping is ranked
like any other. -/
theorem C11_most_called (F : List (String × List String)) :
    (mostCalled F).length = min 10 (F.flatMap Prod.snd).dedup.length
      ∧ (∀ e ∈ mostCalled F, mapGet (callCount F) e.1 = some e.2)
      ∧ (mapKeys (mostCalled F)).Nodup
      ∧ (mostCalled F).Pairwise (fun a b => b.2 ≤ a.2)
      ∧ (∀ e ∈ callCount F, e ∉ mostCalled F → ∀ e' ∈ mostCalled F, e.2 ≤ e'.2)
      ∧ mapKeys (callCount F) = firstMet F
      ∧ (∀ k, (mostCalled F).filter (fun e => decide (e.2 = k))
          <+: (callCount F).filter (fun e => decide (e.2 = k))) := by
  obtain ⟨hlen, hsub, hpair, hcut, hstable⟩ :=
    take_sortWith_key (fun e : String × Nat => e.2) 10 (callCount F)
  have hperm := perm_sortWith
    (fun a b : String × Nat => (b.2 : Int) - (a.2 : Int)) (callCount F)
  have hnd : (mapKeys (callCount F)).Nodup := by
    rw [mapKeys_callCount]
    exact nodup_foldl_setAdd _ _ List.nodup_nil
  refine ⟨?_, ?_, ?_, hpair, ?_, mapKeys_callCount F, hstable⟩
  · have h1 : (callCount F).length = (mapKeys (callCount F)).length := by
      simp [mapKeys]
    rw [← length_firstMet, ← mapKeys_callCount, ← h1]
    exact hlen
  · intro e he
    have hmem : e ∈ callCount F := hperm.subset (hsub.subset he)
    exact (mem_iff_mapGet _ hnd e.1 e.2).mp hmem
  · have h1 : (mapKeys (sortWith
        (fun a b : String × Nat => (b.2 : Int) - (a.2 : Int)) (callCount F))).Nodup :=
      ((hperm.map Prod.fst).nodup_iff).mpr hnd
    exact h1.sublist (hsub.map Prod.fst)
  · intro e he hnot e' he'
    have hmem : e ∈ sortWith
        (fun a b : String × Nat => (b.2 : Int) - (a.2 : Int)) (callCount F) :=
      hperm.symm.subset he
    rw [← List.take_append_drop 10 (sortWith
        (fun a b : String × Nat => (b.2 : Int) - (a.2 : Int)) (callCount F)),
      List.mem_append] at hmem
    rcases hmem with h | h
    · exact absurd h hnot
    · exact hcut e' he' e h

/-! ## The node labels -/

theorem splitAux_skip (sep xs l cur : List Char) :
    splitAux sep (xs ++ l) xs.length cur = splitAux sep l 0 cur := by
  induction xs with
  | nil => rfl
  | cons x xs ih => simpa [splitAux] using ih

theorem splitAux_cons_zero (sep rest cur : List Char) (c : Char) :
    splitAux sep (c :: rest) 0 cur
      = if sep.isPrefixOf (c :: rest) = true then
          cur.reverse :: splitAux sep rest (sep.length - 1) []
        else splitAux sep rest 0 (c :: cur) := rfl

theorem splitAux_of_not_occurs (sep l cur : List Char)
    (h : ∀ pre post, l ≠ pre ++ sep ++ post) :
    splitAux sep l 0 cur = [cur.reverse ++ l] := by
  induction l generalizing cur with
  | nil => simp [splitAux]
  | cons c rest ih =>
    have hnot : sep.isPrefixOf (c :: rest) = false := by
      rw [Bool.eq_false_iff]
      intro hp
      rw [List.isPrefixOf_iff_prefix] at hp
      obtain ⟨t, ht⟩ := hp
      exact h [] t (by simpa using ht.symm)
    have hrest : ∀ pre post, rest ≠ pre ++ sep ++ post := by
      intro pre post he
      exact h (c :: pre) post (by simp [he])
    rw [splitAux_cons_zero, hnot, if_neg (by simp), ih (c :: cur) hrest]
    simp

theorem splitAux_first_occurrence (sep pre rest cur : List Char) (hsep : sep ≠ [])
    (hfirst : ∀ pre' post', pre ++ sep ++ rest = pre' ++ sep ++ post' →
      pre.length ≤ pre'.length) :
    splitAux sep (pre ++ sep ++ rest) 0 cur
      = (cur.reverse ++ pre) :: splitAux sep rest 0 [] := by
  induction pre generalizing cur with
  | nil =>
    obtain ⟨c, sep', rfl⟩ := List.exists_cons_of_ne_nil hsep
    have hp : (c :: sep').isPrefixOf (c :: (sep' ++ rest)) = true := by
      rw [List.isPrefixOf_iff_prefix]
      exact ⟨rest, by simp⟩
    have hskip := splitAux_skip (c :: sep') sep' rest []
    show splitAux (c :: sep') (c :: (sep' ++ rest)) 0 cur
      = (cur.reverse ++ []) :: splitAux (c :: sep') rest 0 []
    rw [splitAux_cons_zero, if_pos hp, List.append_nil]
    have hl : (c :: sep').length - 1 = sep'.length := by simp
    rw [hl, hskip]
  | cons p pre' ih =>
    have hnot : sep.isPrefixOf (p :: (pre' ++ sep ++ rest)) = false := by
      rw [Bool.eq_false_iff]
      intro hp
      rw [List.isPrefixOf_iff_prefix] at hp
      obtain ⟨t, ht⟩ := hp
      have := hfirst [] t (by simpa using ht.symm)
      simp at this
    have hfirst' : ∀ pre'' post'', pre' ++ sep ++ rest = pre'' ++ sep ++ post'' →
        pre'.length ≤ pre''.length := by
      intro pre'' post'' he
      have := hfirst (p :: pre'') post'' (by simp [he])
      simpa using this
    show splitAux sep (p :: (pre' ++ sep ++ rest)) 0 cur
      = (cur.reverse ++ p :: pre') :: splitAux sep rest 0 []
    rw [splitAux_cons_zero, hnot, if_neg (by simp), ih (p :: cur) hfirst']
    simp

theorem splitAux_ne_nil (sep l : List Char) (skip : Nat) (cur : List Char) :
    ∃ segment more, splitAux sep l skip cur = segment :: more := by
  induction l generalizing skip cur with
  | nil => exact ⟨cur.reverse, [], by simp [splitAux]⟩
  | cons c rest ih =>
    cases skip with
    | zero =>
      rw [splitAux_cons_zero]
      by_cases hp : sep.isPrefixOf (c :: rest) = true
      · exact ⟨cur.reverse, _, by rw [if_pos hp]⟩
      · rw [if_neg hp]
        exact ih 0 (c :: cur)
    | succ k =>
      obtain ⟨s, m, h⟩ := ih k cur
      exact ⟨s, m, by simpa [splitAux] using h⟩

/-- A path without the marker `/src/` is shown unchanged. -/
theorem shortPath_of_no_marker (filePath : String)
    (h : ∀ pre post, filePath.data ≠ pre ++ "/src/".data ++ post) :
    shortPath filePath = filePath := by
  unfold shortPath split
  rw [splitAux_of_not_occurs _ _ _ h]
  simp

/-- What the label shows for a path with the marker: with `rest` the text after
the first `/src/`, it is the first segment of the split of `rest`, that is
`rest` up to its own first `/src/` (and the whole path when that segment is
empty). -/
theorem shortPath_of_first_marker (filePath : String) (pre rest : List Char)
    (hpath : filePath.data = pre ++ "/src/".data ++ rest)
    (hfirst : ∀ pre' post', pre ++ "/src/".data ++ rest = pre' ++ "/src/".data ++ post' →
      pre.length ≤ pre'.length) :
    ∃ segment more, split (String.mk rest) "/src/" = segment :: more
      ∧ shortPath filePath = if segment = "" then filePath else segment := by
  obtain ⟨seg, more, hseg⟩ := splitAux_ne_nil "/src/".data rest 0 []
  refine ⟨String.mk seg, more.map String.mk, ?_, ?_⟩
  · simp [split, hseg]
  · unfold shortPath split
    rw [hpath, splitAux_first_occurrence _ _ _ _ (by decide) hfirst, hseg]
    simp

/-- A path with the marker `/src/` exactly once and some text after it is
shown as that text. -/
theorem shortPath_of_single_marker (filePath : String) (pre rest : List Char)
    (hpath : filePath.data = pre ++ "/src/".data ++ rest)
    (hfirst : ∀ pre' post', pre ++ "/src/".data ++ rest = pre' ++ "/src/".data ++ post' →
      pre.length ≤ pre'.length)
    (hrest : ∀ pre' post', rest ≠ pre' ++ "/src/".data ++ post') (hne : rest ≠ []) :
    shortPath filePath = String.mk rest := by
  unfold shortPath split
  rw [hpath, splitAux_first_occurrence _ _ _ _ (by decide) hfirst,
    splitAux_of_not_occurs _ _ _ hrest]
  have : String.mk rest ≠ "" := by
    intro he
    apply hne
    have := congrArg String.data he
    simpa using this
  simp [this]

/-- Each key of a map with distinct keys has exactly one node statement. -/
theorem count_nodeStatements (D : List (String × String)) (hD : (mapKeys D).Nodup)
    (name : String) (h : name ∈ mapKeys D) :
    (D.filter (fun entry => decide (entry.1 = name))).length = 1
      ∧ (nodeStatements D).length = D.length := by
  refine ⟨?_, by simp [nodeStatements]⟩
  induction D with
  | nil => simp [mapKeys] at h
  | cons e rest ih =>
    have h0 : (e.1 :: mapKeys rest).Nodup := hD
    have h1 : e.1 ∉ mapKeys rest := (List.nodup_cons.mp h0).1
    have h2 : (mapKeys rest).Nodup := (List.nodup_cons.mp h0).2
    by_cases he : e.1 = name
    · have hnone : List.filter (fun entry => decide (entry.1 = name)) rest = [] := by
        rw [List.filter_eq_nil_iff]
        intro x hx
        simp only [decide_eq_true_eq]
        intro hxn
        apply h1
        rw [he, ← hxn]
        exact List.mem_map_of_mem Prod.fst hx
      simp [List.filter_cons, he, hnone]
    · have hmem : name ∈ mapKeys rest := by
        have : name ∈ e.1 :: mapKeys rest := h
        rcases List.mem_cons.mp this with h' | h'
        · exact absurd h'.symm he
        · exact h'
      simp [List.filter_cons, he, ih h2 hmem]

/-- C12: the code at a definition whose file lies below two directories named
`src`.  The path is `/home/user` + `/src/` + `project/src/utils.ts`, the split
has three segments, and the label of the one node statement shows the second
segment `project` only, not the whole rest `project/src/utils.ts`. -/
theorem C12_label_two_markers :
    (scan [exampleNestedSrc]).functionDefinitions
        = [("helper", "/home/user/src/project/src/utils.ts")]
      ∧ "/home/user/src/project/src/utils.ts" = "/home/user" ++ "/src/" ++ "project/src/utils.ts"
      ∧ split "/home/user" "/src/" = ["/home/user"]
      ∧ split "/home/user/src/project/src/utils.ts" "/src/" = ["/home/user", "project", "utils.ts"]
      ∧ shortPath "/home/user/src/project/src/utils.ts" = "project"
      ∧ shortPath "/home/user/src/project/src/utils.ts" ≠ "project/src/utils.ts"
      ∧ nodeStatements (scan [exampleNestedSrc]).functionDefinitions
          = ["  \"helper\" [label=\"helper\\n(project)\"];\n"] := by
  refine ⟨by decide, by decide, by decide, by decide, by decide, by decide, by decide⟩

/-! ## The literal callee `Foo.run` -/

theorem mem_calleeSet_of_callsFooRun (d : Declaration) (h : callsFooRun d) :
    "Foo.run" ∈ d.calleeSet := by
  obtain ⟨call, hcall, callee, he, hk, ht⟩ := h
  unfold Declaration.calleeSet
  rw [mem_collectCalls]
  refine ⟨by decide, call, hcall, ?_⟩
  rw [calledName_eq_some_iff]
  exact ⟨callee, he, Or.inr hk, ht⟩

/-- C13 (amended): when a class named `Foo` has a method named `run`, a scanned
declaration registered under the name `C` contains a call whose callee is the
property access written `Foo.run`, and no declaration scanned after it is
registered under `C` with a callee set that is not empty, then the callee set
recorded for `C` contains `Foo.run`, the definitions mapping has the key
`Foo.run`, and the rendered graph has the edge `C -> Foo.run`.  A function
declaration named `run`, and a variable named `run` whose initializer is an
arrow function or a function expression, is registered under the key `run`,
which is not the key `Foo.run`. -/
theorem C13_literal_Foo_run (sourceFiles : List SourceFile)
    (sourceFile : SourceFile) (hsf : sourceFile ∈ sourceFiles)
    (cls : ClassDeclaration) (hcls : cls ∈ sourceFile.classes) (hFoo : cls.name = some "Foo")
    (run : MethodDeclaration) (hrunMem : run ∈ cls.methods) (hrun : run.name = "run")
    (pre post : List (String × Declaration)) (d : String × Declaration) (C : String)
    (hscan : scannedDeclarations sourceFiles = pre ++ d :: post)
    (hname : d.2.canonicalName = some C) (hcall : callsFooRun d.2)
    (hlast : ∀ e ∈ post, e.2.canonicalName = some C → e.2.calleeSet = []) :
    (∃ s, mapGet (scan sourceFiles).functionCalls C = some s ∧ "Foo.run" ∈ s)
      ∧ "Foo.run" ∈ mapKeys (scan sourceFiles).functionDefinitions
      ∧ (C, "Foo.run") ∈
          dotEdges (scan sourceFiles).functionDefinitions (scan sourceFiles).functionCalls
      ∧ (∀ e ∈ scannedDeclarations sourceFiles,
          ((∃ func, e.2 = Declaration.function func ∧ func.name = some "run")
            ∨ (∃ varDecl init, e.2 = Declaration.variableDecl varDecl ∧ varDecl.name = "run"
                ∧ varDecl.initializer = some init
                ∧ (init.getKind = SyntaxKind.ArrowFunction
                    ∨ init.getKind = SyntaxKind.FunctionExpression)))
          → e.2.canonicalName = some "run"
            ∧ "run" ∈ mapKeys (scan sourceFiles).functionDefinitions)
      ∧ "run" ≠ "Foo.run" := by
  have hmem := mem_calleeSet_of_callsFooRun d.2 hcall
  have hne : d.2.calleeSet ≠ [] := by
    intro h; rw [h] at hmem; cases hmem
  have hget : mapGet (scan sourceFiles).functionCalls C = some d.2.calleeSet := by
    rw [scan_eq_scanDeclarations, functionCalls_get, hscan]
    exact lastCalleeSet_of_split pre post d C hname hne hlast
  have hkey : "Foo.run" ∈ mapKeys (scan sourceFiles).functionDefinitions := by
    rw [scan_eq_scanDeclarations, mem_mapKeys_functionDefinitions]
    refine ⟨(sourceFile.filePath, Declaration.method cls.name run), ?_, ?_⟩
    · rw [mem_scannedDeclarations]
      exact ⟨sourceFile, hsf, rfl,
        (mem_declarations _ _).mpr (Or.inr (Or.inr ⟨cls, hcls, run, hrunMem, rfl⟩))⟩
    · simp only [Declaration.canonicalName, hFoo, hrun]
      decide
  refine ⟨⟨_, hget, hmem⟩, hkey, ?_, ?_, by decide⟩
  · rw [mem_dotEdges]
    exact ⟨d.2.calleeSet, mem_of_mapGet _ _ _ hget, hmem, (mapHas_iff _ _).mpr hkey⟩
  · intro e he hshape
    have hcn : e.2.canonicalName = some "run" := by
      rcases hshape with ⟨func, hf, hn⟩ | ⟨varDecl, init, hv, hn, hi, hk⟩
      · rw [hf]
        simp [Declaration.canonicalName, hn]
      · rw [hv]
        simp only [Declaration.canonicalName, hi, hn]
        rw [if_pos hk]
    refine ⟨hcn, ?_⟩
    rw [scan_eq_scanDeclarations, mem_mapKeys_functionDefinitions]
    exact ⟨e, he, hcn⟩

/-- C13 as stated fails when a second declaration named `caller` is scanned
later: class `Foo` has the method `run` and the first `caller` contains the
call `Foo.run()`, yet the callee set recorded for `caller` is `{other}` and the
graph has no edge `caller -> Foo.run`. -/
theorem C13_counterexample_second_caller :
    (∃ d ∈ scannedDeclarations [exampleFooRun, exampleSecondCaller],
        d.2.canonicalName = some "caller" ∧ callsFooRun d.2)
      ∧ (∃ cls ∈ exampleFooRun.classes, cls.name = some "Foo"
          ∧ ∃ run ∈ cls.methods, run.name = "run")
      ∧ mapGet (scan [exampleFooRun, exampleSecondCaller]).functionCalls "caller"
          = some ["other"]
      ∧ "Foo.run" ∈ mapKeys (scan [exampleFooRun, exampleSecondCaller]).functionDefinitions
      ∧ ("caller", "Foo.run") ∉
          dotEdges (scan [exampleFooRun, exampleSecondCaller]).functionDefinitions
            (scan [exampleFooRun, exampleSecondCaller]).functionCalls := by
  refine ⟨?_, ?_, by decide, by decide, by decide⟩
  · have h : scannedDeclarations [exampleFooRun, exampleSecondCaller]
        = (exampleFooRun.filePath, Declaration.function callerOfFooRun)
          :: (List.drop 1 (scannedDeclarations [exampleFooRun, exampleSecondCaller])) := rfl
    refine ⟨(exampleFooRun.filePath, Declaration.function callerOfFooRun), ?_, rfl, ?_⟩
    · rw [h]; exact List.mem_cons_self _ _
    · refine ⟨Node.call "Foo.run()" (Node.propAccess "Foo.run" (Node.ident "Foo") "run") [],
        ?_, _, rfl, rfl, rfl⟩
      have hc : (Declaration.function callerOfFooRun).callExpressions
          = [Node.call "Foo.run()" (Node.propAccess "Foo.run" (Node.ident "Foo") "run") []] :=
        rfl
      rw [hc]; exact List.mem_singleton_self _
  · exact ⟨_, List.mem_cons_self _ _, rfl, runMethod, List.mem_cons_self _ _, rfl⟩

/-- C13 (amended) at the one file with `class Foo { run() {} }` and
`function caller() { Foo.run(); }`. -/
theorem C13_literal_Foo_run_witness :
    (∃ s, mapGet (scan [exampleFooRun]).functionCalls "caller" = some s ∧ "Foo.run" ∈ s)
      ∧ "Foo.run" ∈ mapKeys (scan [exampleFooRun]).functionDefinitions
      ∧ ("caller", "Foo.run") ∈
          dotEdges (scan [exampleFooRun]).functionDefinitions
            (scan [exampleFooRun]).functionCalls
      ∧ (∀ e ∈ scannedDeclarations [exampleFooRun],
          ((∃ func, e.2 = Declaration.function func ∧ func.name = some "run")
            ∨ (∃ varDecl init, e.2 = Declaration.variableDecl varDecl ∧ varDecl.name = "run"
                ∧ varDecl.initializer = some init
                ∧ (init.getKind = SyntaxKind.ArrowFunction
                    ∨ init.getKind = SyntaxKind.FunctionExpression)))
          → e.2.canonicalName = some "run"
            ∧ "run" ∈ mapKeys (scan [exampleFooRun]).functionDefinitions)
      ∧ "run" ≠ "Foo.run" :=
  C13_literal_Foo_run [exampleFooRun] exampleFooRun (List.mem_cons_self _ _)
    { name := some "Foo", methods := [runMethod] } (List.mem_cons_self _ _) rfl
    runMethod (List.mem_cons_self _ _) rfl
    []
    [(exampleFooRun.filePath, Declaration.method (some "Foo") runMethod)]
    (exampleFooRun.filePath, Declaration.function callerOfFooRun) "caller"
    rfl rfl
    ⟨Node.call "Foo.run()" (Node.propAccess "Foo.run" (Node.ident "Foo") "run") [],
      List.mem_singleton_self _, _, rfl, rfl, rfl⟩
    (by
      intro e he
      simp only [List.mem_singleton] at he
      subst he
      intro h
      revert h
      simp only [Declaration.canonicalName]
      decide)

/-! ## Declarations the scan skips -/

/-- C14: for every state of the two mappings and every function declaration
without a name, whatever its body holds, processing the declaration leaves
both mappings as they were. -/
theorem C14_anonymous_function_skipped (filePath : String) (st : ScanState)
    (func : FunctionDeclaration) (h : func.name = none) :
    scanFunction filePath st func = st
      ∧ (scanFunction filePath st func).functionDefinitions = st.functionDefinitions
      ∧ (scanFunction filePath st func).functionCalls = st.functionCalls := by
  have : scanFunction filePath st func = st := by
    simp [scanFunction, h]
  rw [this]
  exact ⟨rfl, rfl, rfl⟩

/-- C14 at `export default function () { f(); }` and maps that already hold an
entry. -/
theorem C14_anonymous_function_skipped_witness :
    scanFunction "/project/src/a.ts" ⟨[("g", ["h"])], [("g", "/project/src/g.ts")]⟩
        { name := none, children := [Node.other "{ f(); }" [callStatement "f"]] }
      = ⟨[("g", ["h"])], [("g", "/project/src/g.ts")]⟩
      ∧ (scanFunction "/project/src/a.ts" ⟨[("g", ["h"])], [("g", "/project/src/g.ts")]⟩
          { name := none, children := [Node.other "{ f(); }" [callStatement "f"]] }
        ).functionDefinitions = [("g", "/project/src/g.ts")]
      ∧ (scanFunction "/project/src/a.ts" ⟨[("g", ["h"])], [("g", "/project/src/g.ts")]⟩
          { name := none, children := [Node.other "{ f(); }" [callStatement "f"]] }
        ).functionCalls = [("g", ["h"])] :=
  C14_anonymous_function_skipped "/project/src/a.ts"
    ⟨[("g", ["h"])], [("g", "/project/src/g.ts")]⟩
    { name := none, children := [Node.other "{ f(); }" [callStatement "f"]] } rfl

/-- C15: a variable declaration whose initializer is an arrow function or a
function expression is registered in the definitions mapping under the
variable's own name with the current file path; a variable declaration with no
initializer or with an initializer of any other kind leaves both mappings as
they were.  An arrow function wrapped in a call or in parentheses is such
another kind. -/
theorem C15_variable_registration (filePath : String) (st : ScanState)
    (varDecl : VariableDeclaration) :
    (hasFunctionInitializer varDecl →
        (scanVariableDeclaration filePath st varDecl).functionDefinitions
            = mapSet st.functionDefinitions varDecl.name filePath
          ∧ mapGet (scanVariableDeclaration filePath st varDecl).functionDefinitions
              varDecl.name = some filePath)
      ∧ (¬ hasFunctionInitializer varDecl → scanVariableDeclaration filePath st varDecl = st)
      ∧ (∀ text callee arguments,
          ¬ hasFunctionInitializer ⟨varDecl.name, some (Node.call text callee arguments)⟩)
      ∧ (∀ text children,
          ¬ hasFunctionInitializer ⟨varDecl.name, some (Node.other text children)⟩) := by
  refine ⟨?_, ?_, ?_, ?_⟩
  · rintro ⟨init, hi, hk⟩
    have h1 : (scanVariableDeclaration filePath st varDecl).functionDefinitions
        = mapSet st.functionDefinitions varDecl.name filePath := by
      simp only [scanVariableDeclaration, hi]
      rw [if_pos hk, register_functionDefinitions]
    refine ⟨h1, ?_⟩
    rw [h1, mapGet_mapSet]
    simp
  · intro hnot
    unfold scanVariableDeclaration
    cases hi : varDecl.initializer with
    | none => rfl
    | some init =>
      have hk : ¬ (init.getKind = SyntaxKind.ArrowFunction
          ∨ init.getKind = SyntaxKind.FunctionExpression) :=
        fun hk => hnot ⟨init, hi, hk⟩
      simp only []
      rw [if_neg hk]
  · rintro text callee arguments ⟨init, hi, hk⟩
    simp only [Option.some.injEq] at hi
    subst hi
    simp [Node.getKind] at hk
  · rintro text children ⟨init, hi, hk⟩
    simp only [Option.some.injEq] at hi
    subst hi
    simp [Node.getKind] at hk

/-! ## Keys and values of the call mapping -/

/-- C16: for every input and every name `C`, `C` is a key of the call mapping
after the scan iff some scanned declaration registered under `C` has a callee
set that is not empty, and the set recorded for `C` is the callee set of the
last scanned such declaration.  For the input in which `a.ts` declares
`function f() { g(); }` and `b.ts` declares `function f() {}`, the definitions
mapping records `b.ts` for `f` while the call mapping holds the set `{g}` of
the declaration in `a.ts`. -/
theorem C16_call_mapping_keys (sourceFiles : List SourceFile) (C : String) :
    (C ∈ mapKeys (scan sourceFiles).functionCalls ↔
        ∃ d ∈ scannedDeclarations sourceFiles,
          d.2.canonicalName = some C ∧ d.2.calleeSet ≠ [])
      ∧ mapGet (scan sourceFiles).functionCalls C
          = ((List.filter
                (fun d => decide (d.2.canonicalName = some C ∧ d.2.calleeSet ≠ []))
                (scannedDeclarations sourceFiles)).getLast?).map (fun d => d.2.calleeSet)
      ∧ (mapGet (scan [exampleFWithCalls, exampleSecondF]).functionDefinitions "f"
            = some "/project/src/b.ts"
          ∧ mapGet (scan [exampleFWithCalls, exampleSecondF]).functionCalls "f" = some ["g"]
          ∧ scannedDeclarations [exampleFWithCalls, exampleSecondF]
              = [ ("/project/src/a.ts", Declaration.function
                    { name := some "f"
                      children := [Node.ident "f", Node.other "{ g(); }" [callStatement "g"]] }),
                  ("/project/src/b.ts", Declaration.function
                    { name := some "f"
                      children := [Node.ident "f", Node.other "{}" []] }) ]) := by
  refine ⟨?_, ?_, by decide, by decide, rfl⟩
  · rw [scan_eq_scanDeclarations]
    exact mem_mapKeys_functionCalls _ C
  · rw [scan_eq_scanDeclarations, functionCalls_get]
    rfl

/-! ## Keys of the call mapping are keys of the definitions mapping -/

theorem functionCalls_keys_subset (ds : List (String × Declaration)) :
    ∀ C ∈ mapKeys (scanDeclarations ds).functionCalls,
      C ∈ mapKeys (scanDeclarations ds).functionDefinitions := by
  intro C hC
  rw [mem_mapKeys_functionCalls] at hC
  obtain ⟨d, hd, hn, -⟩ := hC
  rw [mem_mapKeys_functionDefinitions]
  exact ⟨d, hd, hn⟩

theorem mem_nodeStatements_of_key (D : List (String × String)) (name : String)
    (h : name ∈ mapKeys D) :
    ∃ filePath, (name, filePath) ∈ D ∧ nodeStatement (name, filePath) ∈ nodeStatements D := by
  unfold mapKeys at h
  rw [List.mem_map] at h
  obtain ⟨⟨k, p⟩, hmem, hk⟩ := h
  simp only at hk
  subst hk
  exact ⟨p, hmem, List.mem_map_of_mem nodeStatement hmem⟩

/-- C17: after any number of declarations, in scan order, every key of the call
mapping is a key of the definitions mapping.  Hence after the scan the count
reported as functions with outgoing calls is at most the count reported as
total functions found, and both the source and the target of every edge
statement of the rendered graph are names for which the graph has a node
statement. -/
theorem C17_call_keys_are_definition_keys (sourceFiles : List SourceFile) (n : Nat) :
    scan sourceFiles = scanDeclarations (scannedDeclarations sourceFiles)
      ∧ (∀ C ∈ mapKeys
            (scanDeclarations ((scannedDeclarations sourceFiles).take n)).functionCalls,
          C ∈ mapKeys
            (scanDeclarations ((scannedDeclarations sourceFiles).take n)).functionDefinitions)
      ∧ (∀ C ∈ mapKeys (scan sourceFiles).functionCalls,
          C ∈ mapKeys (scan sourceFiles).functionDefinitions)
      ∧ functionsWithOutgoingCalls (scan sourceFiles) ≤ totalFunctionsFound (scan sourceFiles)
      ∧ (∀ e ∈ dotEdges (scan sourceFiles).functionDefinitions (scan sourceFiles).functionCalls,
          (∃ filePath, (e.1, filePath) ∈ (scan sourceFiles).functionDefinitions
              ∧ nodeStatement (e.1, filePath)
                  ∈ nodeStatements (scan sourceFiles).functionDefinitions)
            ∧ (∃ filePath, (e.2, filePath) ∈ (scan sourceFiles).functionDefinitions
                ∧ nodeStatement (e.2, filePath)
                    ∈ nodeStatements (scan sourceFiles).functionDefinitions)) := by
  have hsub : ∀ C ∈ mapKeys (scan sourceFiles).functionCalls,
      C ∈ mapKeys (scan sourceFiles).functionDefinitions := by
    rw [scan_eq_scanDeclarations]
    exact functionCalls_keys_subset _
  refine ⟨scan_eq_scanDeclarations sourceFiles, functionCalls_keys_subset _, hsub, ?_, ?_⟩
  · have hnd : (mapKeys (scan sourceFiles).functionCalls).Nodup := by
      rw [scan_eq_scanDeclarations]; exact functionCalls_nodup _
    have hle := (List.subperm_of_subset hnd hsub).length_le
    simpa [mapKeys, functionsWithOutgoingCalls, totalFunctionsFound] using hle
  · rintro ⟨C, K⟩ he
    obtain ⟨s, hmem, -, hD⟩ := (mem_dotEdges _ _ C K).mp he
    have hC : C ∈ mapKeys (scan sourceFiles).functionCalls := List.mem_map_of_mem Prod.fst hmem
    exact ⟨mem_nodeStatements_of_key _ C (hsub C hC),
      mem_nodeStatements_of_key _ K ((mapHas_iff _ K).mp hD)⟩

/-! ## Edges into a definition and its called count -/

theorem functionCalls_sets_nodup (ds : List (String × Declaration)) :
    ∀ e ∈ (scanDeclarations ds).functionCalls, e.2.Nodup := by
  rintro ⟨C, s⟩ he
  have hg := (mem_iff_mapGet _ (functionCalls_nodup ds) C s).mp he
  rw [functionCalls_get] at hg
  obtain ⟨d, -, -, hset, -⟩ := lastCalleeSet_eq_some _ _ _ hg
  rw [← hset]
  exact nodup_collectCalls _

theorem length_filter_eq_of_nodup (s : List String) (hs : s.Nodup) (K : String) (b : Bool) :
    (List.filter (fun x => decide (x = K)) (List.filter (fun _ => b) s)).length
      = if K ∈ s ∧ b = true then 1 else 0 := by
  cases b with
  | false => simp
  | true =>
    simp only [List.filter_true, and_true]
    induction s with
    | nil => simp
    | cons x rest ih =>
      have h1 : x ∉ rest := (List.nodup_cons.mp hs).1
      have h2 : rest.Nodup := (List.nodup_cons.mp hs).2
      by_cases hx : x = K
      · subst hx
        have hr : List.filter (fun y => decide (y = x)) rest = [] := by
          rw [List.filter_eq_nil_iff]
          intro y hy
          simp only [decide_eq_true_eq]
          intro hyx
          exact h1 (hyx ▸ hy)
        simp [List.filter_cons, hr]
      · have hx' : ¬ K = x := fun e => hx e.symm
        simp [List.filter_cons, hx, hx', ih h2]

theorem length_filter_dotEdges (D : List (String × String)) (F : List (String × List String))
    (hS : ∀ e ∈ F, e.2.Nodup) (K : String) (hK : mapHas D K = true) :
    ((dotEdges D F).filter (fun e => decide (e.2 = K))).length
      = (F.filter (fun e => decide (K ∈ e.2))).length := by
  induction F with
  | nil => rfl
  | cons e rest ih =>
    have he : e.2.Nodup := hS e (List.mem_cons_self _ _)
    have hr : ∀ e' ∈ rest, e'.2.Nodup := fun e' h => hS e' (List.mem_cons_of_mem _ h)
    have hinner : ((List.map (fun calledFunc => (e.1, calledFunc))
          (List.filter (fun calledFunc => mapHas D calledFunc) e.2)).filter
            (fun p => decide (p.2 = K))).length
        = if K ∈ e.2 then 1 else 0 := by
      rw [List.filter_map, List.length_map]
      have hcomm : List.filter ((fun p : String × String => decide (p.2 = K)) ∘
            fun calledFunc => (e.1, calledFunc))
          (List.filter (fun calledFunc => mapHas D calledFunc) e.2)
          = List.filter (fun x => decide (x = K)) e.2 := by
        rw [List.filter_filter]
        apply List.filter_congr
        intro x _
        by_cases hx : x = K
        · subst hx; simp [hK]
        · simp [hx]
      rw [hcomm]
      have := length_filter_eq_of_nodup e.2 he K true
      simpa using this
    unfold dotEdges at ih ⊢
    rw [List.flatMap_cons, List.filter_append, List.length_append, ih hr, hinner,
      List.filter_cons]
    by_cases hKe : K ∈ e.2
    · simp [hKe]; omega
    · simp [hKe]

theorem nodup_dotEdges (D : List (String × String)) (F : List (String × List String))
    (hF : (mapKeys F).Nodup) (hS : ∀ e ∈ F, e.2.Nodup) : (dotEdges D F).Nodup := by
  induction F with
  | nil => simp [dotEdges]
  | cons e rest ih =>
    have h0 : (e.1 :: mapKeys rest).Nodup := hF
    have h1 : e.1 ∉ mapKeys rest := (List.nodup_cons.mp h0).1
    have h2 : (mapKeys rest).Nodup := (List.nodup_cons.mp h0).2
    have he : e.2.Nodup := hS e (List.mem_cons_self _ _)
    have hr : ∀ e' ∈ rest, e'.2.Nodup := fun e' h => hS e' (List.mem_cons_of_mem _ h)
    have hrest : (dotEdges D rest).Nodup := ih h2 hr
    have hsplit : dotEdges D (e :: rest)
        = List.map (fun calledFunc => (e.1, calledFunc))
            (List.filter (fun calledFunc => mapHas D calledFunc) e.2) ++ dotEdges D rest := by
      simp [dotEdges]
    rw [hsplit, List.nodup_append]
    refine ⟨?_, hrest, ?_⟩
    · apply List.Nodup.map
      · intro a b hab
        simpa using hab
      · exact he.filter _
    · intro p hp hq
      obtain ⟨C, K⟩ := p
      simp only [List.mem_map, List.mem_filter, Prod.mk.injEq] at hp
      obtain ⟨x, -, hC, -⟩ := hp
      obtain ⟨s, hmem, -, -⟩ := (mem_dotEdges D rest C K).mp hq
      apply h1
      rw [hC]
      exact List.mem_map_of_mem Prod.fst hmem

/-- C18: for every input and every name `K` that is a key of the definitions
mapping after the scan, the number of edge statements of the rendered graph
whose target is `K` is the called count of `K` computed for the report (the
value `callCount` holds for `K`, and 0 when it holds none); and no (caller,
callee) pair has more than one edge statement. -/
theorem C18_edges_into_eq_callCount (sourceFiles : List SourceFile) (K : String)
    (hK : K ∈ mapKeys (scan sourceFiles).functionDefinitions) :
    ((dotEdges (scan sourceFiles).functionDefinitions (scan sourceFiles).functionCalls).filter
        (fun e => decide (e.2 = K))).length
        = (mapGet (callCount (scan sourceFiles).functionCalls) K).getD 0
      ∧ (dotEdges (scan sourceFiles).functionDefinitions
          (scan sourceFiles).functionCalls).Nodup := by
  have hF : (mapKeys (scan sourceFiles).functionCalls).Nodup := by
    rw [scan_eq_scanDeclarations]; exact functionCalls_nodup _
  have hS : ∀ e ∈ (scan sourceFiles).functionCalls, e.2.Nodup := by
    rw [scan_eq_scanDeclarations]; exact functionCalls_sets_nodup _
  refine ⟨?_, nodup_dotEdges _ _ hF hS⟩
  rw [length_filter_dotEdges _ _ hS K ((mapHas_iff _ K).mpr hK)]
  have h := getD_callCount_aux (scan sourceFiles).functionCalls hS [] K
  unfold callCount
  rw [h]
  simp [mapGet]

/-- C18 at the example `function a() { b(); b(); }`, `function b() {}`: one
edge statement has the target `b`, and the called count of `b` is 1. -/
theorem C18_edges_into_eq_callCount_witness :
    (((dotEdges (scan [exampleTwoCalls]).functionDefinitions
          (scan [exampleTwoCalls]).functionCalls).filter
        (fun e => decide (e.2 = "b"))).length
        = (mapGet (callCount (scan [exampleTwoCalls]).functionCalls) "b").getD 0
      ∧ (dotEdges (scan [exampleTwoCalls]).functionDefinitions
          (scan [exampleTwoCalls]).functionCalls).Nodup)
      ∧ (mapGet (callCount (scan [exampleTwoCalls]).functionCalls) "b").getD 0 = 1 :=
  ⟨C18_edges_into_eq_callCount [exampleTwoCalls] "b" (by decide), by decide⟩

/-! ## Methods of a class without a name -/

theorem fullName_none (methodName : String) :
    fullName none methodName = "undefined." ++ methodName := by
  show "undefined" ++ "." ++ methodName = "undefined." ++ methodName
  rfl

theorem scanMethod_functionCalls (filePath : String) (className : Option String)
    (st : ScanState) (m : MethodDeclaration)
    (h : (Declaration.method className m).calleeSet ≠ []) :
    (scanMethod filePath className st m).functionCalls
      = mapSet st.functionCalls (fullName className m.name)
          (Declaration.method className m).calleeSet := by
  have h' : collectCalls (m.getDescendantsOfKind SyntaxKind.CallExpression) ≠ [] := h
  unfold scanMethod
  rw [register_functionCalls, if_neg h']
  rfl

/-- C19: for a class without a name the scan does not skip a method `m`: it
registers the key `"undefined." + m` with the current file path and, when the
callee set of `m` is not empty, records that set under the same key.  So a
method of the same name in a second class without a name, scanned later, takes
over the key: the path, and the callee set when that one is not empty, are
those of the later method.  After the whole scan the key is in the definitions
mapping, and in the call mapping when the callee set is not empty. -/
theorem C19_anonymous_class_methods (filePath : String) (st : ScanState)
    (m : MethodDeclaration) :
    fullName none m.name = "undefined." ++ m.name
      ∧ (scanMethod filePath none st m).functionDefinitions
          = mapSet st.functionDefinitions ("undefined." ++ m.name) filePath
      ∧ mapGet (scanMethod filePath none st m).functionDefinitions ("undefined." ++ m.name)
          = some filePath
      ∧ ((Declaration.method none m).calleeSet ≠ [] →
          mapGet (scanMethod filePath none st m).functionCalls ("undefined." ++ m.name)
            = some (Declaration.method none m).calleeSet)
      ∧ (∀ (laterPath : String) (later : MethodDeclaration), later.name = m.name →
          mapGet (scanMethod laterPath none (scanMethod filePath none st m) later
              ).functionDefinitions ("undefined." ++ m.name) = some laterPath
            ∧ ((Declaration.method none later).calleeSet ≠ [] →
                mapGet (scanMethod laterPath none (scanMethod filePath none st m) later
                    ).functionCalls ("undefined." ++ m.name)
                  = some (Declaration.method none later).calleeSet))
      ∧ (∀ (sourceFiles : List SourceFile), ∀ sourceFile ∈ sourceFiles,
          ∀ cls ∈ sourceFile.classes, cls.name = none → m ∈ cls.methods →
            "undefined." ++ m.name ∈ mapKeys (scan sourceFiles).functionDefinitions
              ∧ ((Declaration.method none m).calleeSet ≠ [] →
                  "undefined." ++ m.name ∈ mapKeys (scan sourceFiles).functionCalls)) := by
  have hdefs : ∀ (p : String) (s : ScanState) (x : MethodDeclaration),
      (scanMethod p none s x).functionDefinitions
        = mapSet s.functionDefinitions ("undefined." ++ x.name) p := by
    intro p s x
    unfold scanMethod
    rw [register_functionDefinitions, fullName_none]
  have hcalls : ∀ (p : String) (s : ScanState) (x : MethodDeclaration),
      (Declaration.method none x).calleeSet ≠ [] →
      mapGet (scanMethod p none s x).functionCalls ("undefined." ++ x.name)
        = some (Declaration.method none x).calleeSet := by
    intro p s x hx
    rw [scanMethod_functionCalls p none s x hx, fullName_none, mapGet_mapSet]
    simp
  refine ⟨fullName_none m.name, hdefs filePath st m, ?_, hcalls filePath st m, ?_, ?_⟩
  · rw [hdefs, mapGet_mapSet]
    simp
  · intro laterPath later hname
    constructor
    · rw [hdefs, hname, mapGet_mapSet]
      simp
    · intro hne
      rw [← hname]
      exact hcalls laterPath _ later hne
  · intro sourceFiles sourceFile hsf cls hcls hnone hm
    have hd : (sourceFile.filePath, Declaration.method none m)
        ∈ scannedDeclarations sourceFiles := by
      rw [mem_scannedDeclarations]
      refine ⟨sourceFile, hsf, rfl, (mem_declarations _ _).mpr (Or.inr (Or.inr ?_))⟩
      exact ⟨cls, hcls, m, hm, by rw [hnone]⟩
    have hcn : (Declaration.method none m).canonicalName = some ("undefined." ++ m.name) := by
      simp only [Declaration.canonicalName, fullName_none]
    constructor
    · rw [scan_eq_scanDeclarations, mem_mapKeys_functionDefinitions]
      exact ⟨_, hd, hcn⟩
    · intro hne
      rw [scan_eq_scanDeclarations, mem_mapKeys_functionCalls]
      exact ⟨_, hd, hcn, hne⟩

/-- C19 at two files that each hold a class without a name with a method
`run`: both methods are registered under `undefined.run`, and the path and the
callee set kept are those of the second file. -/
theorem C19_anonymous_class_methods_witness :
    (scan [exampleAnonymousFirst, exampleAnonymousSecond]).functionDefinitions
        = [("undefined.run", "/project/src/second.ts")]
      ∧ (scan [exampleAnonymousFirst, exampleAnonymousSecond]).functionCalls
          = [("undefined.run", ["b"])]
      ∧ (scan [exampleAnonymousFirst]).functionCalls = [("undefined.run", ["a"])]
      ∧ "undefined." ++ runCallingA.name
          ∈ mapKeys (scan [exampleAnonymousFirst, exampleAnonymousSecond]).functionDefinitions :=
  ⟨by decide, by decide, by decide,
    ((C19_anonymous_class_methods "/project/src/first.ts" ScanState.empty runCallingA).2.2.2.2.2
      [exampleAnonymousFirst, exampleAnonymousSecond] exampleAnonymousFirst
      (List.mem_cons_self _ _) { name := none, methods := [runCallingA] }
      (List.mem_cons_self _ _) rfl (List.mem_cons_self _ _)).1⟩
end Codemap
